import Mathlib

/-!
Verification development for the `hst` version-control engine.

Python text values (`str`) are modelled as `List Char`; byte strings are
modelled as `List Nat` (one entry per byte).  UTF-8 encoding/decoding and
zlib compression, which the engine round-trips through at its I/O
boundary, are carried as explicit function parameters.  The SHA-1 digest
is likewise carried as an opaque `hash` parameter: every theorem below
holds for an arbitrary choice of that function, hence in particular for
SHA-1.  Filesystem state is modelled as explicit records of file
contents.  Loops whose termination rests on the finiteness of the
repository (graph traversals) take an explicit fuel argument.
-/

namespace Hst

/-- Python `str` modelled as a list of characters. -/
abbrev Str := List Char

/-- Python's substring test `pat in s`. -/
def containsSub (s pat : Str) : Bool :=
  if pat.isPrefixOf s then true
  else
    match s with
    | [] => false
    | _ :: t => containsSub t pat

/-- Python's notion of whitespace for `str.strip()` (ASCII part). -/
def isPySpace (c : Char) : Bool :=
  c = ' ' || c = '\t' || c = '\n' || c = '\x0d' || c = '\x0b' || c = '\x0c'

/-- Python `s.strip()`: drop leading and trailing whitespace. -/
def pyStrip (s : Str) : Str :=
  ((s.dropWhile isPySpace).reverse.dropWhile isPySpace).reverse

/-- Python `text.split("\n\n", 1)`: the text before the first blank-line
separator, and (when the separator occurs) the text after it. -/
def splitDoubleNL : Str → Str × Option Str
  | [] => ([], none)
  | [c] => ([c], none)
  | a :: b :: rest =>
    if a = '\n' ∧ b = '\n' then ([], some rest)
    else
      let r := splitDoubleNL (b :: rest)
      (a :: r.1, r.2)

/-- Python `text.split("\n")` (full split on a single newline). -/
def splitNL : Str → List Str
  | [] => [[]]
  | '\n' :: rest => [] :: splitNL rest
  | c :: rest =>
    match splitNL rest with
    | [] => [[c]]
    | l :: ls => (c :: l) :: ls

/-- Python `"\n".join(lines)`. -/
def joinNL : List Str → Str
  | [] => []
  | [l] => l
  | l :: ls => l ++ '\n' :: joinNL ls

/-- Split a string at its last space: `some (before, after)` where `after`
contains no space, or `none` when the string has no space at all. -/
def splitLastSpace : Str → Option (Str × Str)
  | [] => none
  | c :: rest =>
    match splitLastSpace rest with
    | some (b, a) => some (c :: b, a)
    | none => if c = ' ' then some ([], rest) else none

/-- Python `s.rsplit(" ", 2)`. -/
def rsplitSpace2 (s : Str) : List Str :=
  match splitLastSpace s with
  | none => [s]
  | some (b, a) =>
    match splitLastSpace b with
    | none => [b, a]
    | some (b2, a2) => [b2, a2, a]

/-- The decimal digit character for `d < 10`. -/
def digitChar : Nat → Char
  | 0 => '0' | 1 => '1' | 2 => '2' | 3 => '3' | 4 => '4'
  | 5 => '5' | 6 => '6' | 7 => '7' | 8 => '8' | _ => '9'

/-- Decimal digits of `n`, least significant first, with structural fuel
(any fuel above `n` suffices, and the wrapper below supplies `n + 1`). -/
def natDigitsRevFuel : Nat → Nat → List Char
  | 0, _ => []
  | fuel + 1, n =>
    if n < 10 then [digitChar n]
    else digitChar (n % 10) :: natDigitsRevFuel fuel (n / 10)

/-- Decimal digits of `n`, least significant first. -/
def natDigitsRev (n : Nat) : List Char := natDigitsRevFuel (n + 1) n

/-- Python `str(n)` for a natural number. -/
def natToStr (n : Nat) : Str := (natDigitsRev n).reverse

/-- Python `str(t)` for an integer (`f"{t}"` in a format string). -/
def intToStr (t : Int) : Str :=
  if t < 0 then '-' :: natToStr (-t).toNat else natToStr t.toNat

/-- The value of a decimal digit character, or `none` for a non-digit. -/
def digitVal (c : Char) : Option Nat :=
  if '0' ≤ c ∧ c ≤ '9' then some (c.toNat - 48) else none

/-- Parse an unsigned decimal numeral (every character must be a digit). -/
def parseNat (s : Str) : Option Nat :=
  if s = [] then none
  else if s.all (fun c => (digitVal c).isSome) then
    some (s.foldl (fun acc c => acc * 10 + (c.toNat - 48)) 0)
  else none

/-- Python `int(s)` restricted to an optional sign followed by digits
(the only shapes produced by `str(int)`, which is all the engine feeds it). -/
def parseInt : Str → Option Int
  | '-' :: rest => (parseNat rest).map (fun n => -(n : Int))
  | '+' :: rest => (parseNat rest).map (fun n => (n : Int))
  | s => (parseNat s).map (fun n => (n : Int))

/-- Python `s.encode()` at the byte level (code points; faithful on ASCII,
which is all the object headers contain). -/
def strBytes (s : String) : List Nat := s.toList.map Char.toNat

/-- Byte encoding of a modelled text value. -/
def strBytesL (s : Str) : List Nat := s.map Char.toNat

/-!
## Commit objects (`src/hst/objects/objects.py`, class `Commit`)
-/

/-- A commit object: tree OID, parent OIDs, identities, timestamps with
timezone strings, and the free-text message. -/
structure Commit where
  tree : Str
  parents : List Str
  author : Str
  committer : Str
  message : Str
  author_timestamp : Int
  committer_timestamp : Int
  author_tz : Str
  committer_tz : Str
deriving DecidableEq, Repr

/-- `Commit.__init__`: the timestamps default through Python's
`x or int(time.time())`, so `None` and `0` are both replaced by the
current clock value `now`.  The timezone defaults are `"-0000"`. -/
def mkCommit (tree : Str) (parents : List Str) (author committer message : Str)
    (ats cts : Option Int) (atz ctz : Str) (now : Int) : Commit :=
  { tree := tree
    parents := parents
    author := author
    committer := committer
    message := message
    author_timestamp := match ats with
      | some t => if t = 0 then now else t
      | none => now
    committer_timestamp := match cts with
      | some t => if t = 0 then now else t
      | none => now
    author_tz := atz
    committer_tz := ctz }

/-- The header lines of `Commit.serialize`: `tree`, zero or more `parent`,
`author`, `committer`. -/
def Commit.headerLines (c : Commit) : List Str :=
  ("tree ".toList ++ c.tree)
    :: (c.parents.map (fun p => "parent ".toList ++ p)
      ++ [("author ".toList ++ c.author ++ [' '] ++ intToStr c.author_timestamp
            ++ [' '] ++ c.author_tz),
          ("committer ".toList ++ c.committer ++ [' '] ++ intToStr c.committer_timestamp
            ++ [' '] ++ c.committer_tz)])

/-- `Commit.serialize`: header lines, a blank line, then the raw message,
joined with single newlines. -/
def Commit.serialize (c : Commit) : Str :=
  joinNL (c.headerLines ++ [[], c.message])

/-- Mutable parse state threaded through `Commit.deserialize`'s header loop. -/
structure CommitParseState where
  tree : Str
  parents : List Str
  author : Str
  committer : Str
  ats : Option Int
  cts : Option Int
  atz : Str
  ctz : Str

/-- Initial values of the parse variables in `Commit.deserialize`. -/
def commitParseInit : CommitParseState :=
  { tree := [], parents := [], author := [], committer := []
    ats := none, cts := none, atz := "-0000".toList, ctz := "-0000".toList }

/-- One header line of `Commit.deserialize`: the `startswith` chain.
`none` models the `IndexError` / `ValueError` the Python raises when an
`author`/`committer` line has fewer than three space-separated fields or a
non-numeric timestamp. -/
def commitParseLine (st : CommitParseState) (line : Str) : Option CommitParseState :=
  if ("tree ".toList).isPrefixOf line then
    some { st with tree := line.drop 5 }
  else if ("parent ".toList).isPrefixOf line then
    some { st with parents := st.parents ++ [line.drop 7] }
  else if ("author ".toList).isPrefixOf line then
    match rsplitSpace2 (line.drop 7) with
    | [a, ts, tz] =>
      (parseInt ts).map (fun t => { st with author := a, ats := some t, atz := tz })
    | _ => none
  else if ("committer ".toList).isPrefixOf line then
    match rsplitSpace2 (line.drop 10) with
    | [a, ts, tz] =>
      (parseInt ts).map (fun t => { st with committer := a, cts := some t, ctz := tz })
    | _ => none
  else some st

/-- Fold `commitParseLine` over the header lines. -/
def commitParseLines (st : CommitParseState) : List Str → Option CommitParseState
  | [] => some st
  | l :: ls =>
    match commitParseLine st l with
    | none => none
    | some st2 => commitParseLines st2 ls

/-- `Commit.deserialize`: split at the first blank line, parse the header
lines, strip the message, and rebuild through the constructor.  `none`
models an uncaught Python exception. -/
def Commit.deserialize (now : Int) (data : Str) : Option Commit :=
  match splitDoubleNL data with
  | (_, none) => none
  | (headers, some message) =>
    match commitParseLines commitParseInit (splitNL headers) with
    | none => none
    | some st =>
      some (mkCommit st.tree st.parents st.author st.committer (pyStrip message)
        st.ats st.cts st.atz st.ctz now)

/-!
## Tree objects (`src/hst/objects/objects.py`, class `Tree`) and tree
builders (`src/hst/repo/objects.py`, `build_tree`;
`src/hst/commands/merge.py`, `create_tree_from_index`)
-/

/-- A tree entry `(mode, name, oid)` as in `Tree.__init__`. -/
abbrev TreeEntry := String × String × String

/-- A tree object: the entry list exactly as supplied at construction. -/
structure Tree where
  entries : List TreeEntry
deriving DecidableEq, Repr

/-- The value of one hex digit (`bytes.fromhex`); OIDs in the repository
are always valid lower-case hex digests. -/
def hexVal (c : Char) : Nat :=
  if '0' ≤ c ∧ c ≤ '9' then c.toNat - 48
  else if 'a' ≤ c ∧ c ≤ 'f' then c.toNat - 87
  else if 'A' ≤ c ∧ c ≤ 'F' then c.toNat - 55
  else 0

/-- Python `bytes.fromhex`: consume hex digit pairs into bytes. -/
def fromHex : Str → List Nat
  | c1 :: c2 :: rest => (hexVal c1 * 16 + hexVal c2) :: fromHex rest
  | _ => []

/-- `Tree.serialize`: for each entry, `mode SP name NUL` followed by the
20 raw bytes of the entry's OID.  Note: the entry list is serialized in
the order it is stored; `Tree.serialize` itself performs no sorting. -/
def Tree.serialize (t : Tree) : List Nat :=
  t.entries.foldl
    (fun out e => out ++ strBytes (e.1 ++ " " ++ e.2.1) ++ [0] ++ fromHex e.2.2.toList)
    []

/-- The stored form hashed by `Object.oid`:
`"<kind> <byte-length>\0" ++ content`. -/
def oidStoreBytes (kind : String) (content : List Nat) : List Nat :=
  strBytes (kind ++ " " ++ toString content.length) ++ [0] ++ content

/-- `Object.oid` for a tree, over an arbitrary digest function `hash`
(instantiated by SHA-1 hexdigest in the source). -/
def Tree.oid (hash : List Nat → String) (t : Tree) : String :=
  hash (oidStoreBytes "tree" t.serialize)

/-- The sort `entries.sort(key=lambda x: x[1])` performed by `build_tree`
(`src/hst/repo/objects.py` line 70) before constructing the `Tree`. -/
def sortEntriesByName (entries : List TreeEntry) : List TreeEntry :=
  List.insertionSort (fun a b => a.2.1 ≤ b.2.1) entries

/-- The final step of `build_tree`: sort the collected entries by name and
construct the `Tree` object from them. -/
def build_tree_node (entries : List TreeEntry) : Tree :=
  ⟨sortEntriesByName entries⟩

/-- Python tuple comparison used by `sorted(index.items())`:
lexicographic on `(path, oid)`. -/
def pairLe (a b : String × String) : Prop :=
  a.1 < b.1 ∨ (a.1 = b.1 ∧ a.2 ≤ b.2)

instance : DecidableRel pairLe := fun a b => by
  unfold pairLe; infer_instance

/-- Python `sorted(index.items())`. -/
def sortIndexItems (index : List (String × String)) : List (String × String) :=
  List.insertionSort pairLe index

/-- `create_tree_from_index` (`src/hst/commands/merge.py`): one flat tree
whose entries are the sorted index pairs, each with mode `"100644"` and
the full relative path as the entry name. -/
def create_tree_from_index (index : List (String × String)) : Tree :=
  ⟨(sortIndexItems index).map (fun pe => ("100644", pe.1, pe.2))⟩

/-!
## Three-way merge engine (`src/hst/commands/merge.py`)

Flattened trees (`read_tree_recursive`'s output) are `path -> oid`
association lists with pairwise-distinct keys (they come from Python
dicts).  `readBlob` models `read_object(hst_dir, oid, Blob)`; `utf8dec`
models `bytes.decode("utf-8")` (`none` = `UnicodeDecodeError`);
`utf8enc` models `str.encode("utf-8")`; `blobOid` models
`Blob(data, store=True).oid()`.
-/

/-- A flattened tree: repository-relative path to blob OID. -/
abbrev FlatTree := List (String × String)

/-- The text used for one side of a conflict in `create_conflict_markers`:
the decoded blob content, `"[Binary file]"` when decoding fails, and `""`
when the side has no OID or the blob cannot be read. -/
def sideText (readBlob : String → Option (List Nat))
    (utf8dec : List Nat → Option Str) (oid? : Option String) : Str :=
  match oid? with
  | none => []
  | some oid =>
    match readBlob oid with
    | none => []
    | some data =>
      match utf8dec data with
      | some s => s
      | none => "[Binary file]".toList

/-- `create_conflict_markers`: both sides' text framed by the conflict
delimiters `<<<<<<< HEAD` and `>>>>>>> MERGE_HEAD` with the `=======`
separator. -/
def create_conflict_markers (readBlob : String → Option (List Nat))
    (utf8dec : List Nat → Option Str) (current_oid target_oid : Option String) : Str :=
  "<<<<<<< HEAD\n".toList
    ++ sideText readBlob utf8dec current_oid
    ++ "=======\n".toList
    ++ sideText readBlob utf8dec target_oid
    ++ ">>>>>>> MERGE_HEAD\n".toList

/-- The paths considered by `merge_trees`: the union of the three trees'
key sets (each path once). -/
def allMergePaths (base current target : FlatTree) : List String :=
  (base.map Prod.fst ++ current.map Prod.fst ++ target.map Prod.fst).dedup

/-- The per-path decision of `merge_trees`' loop body: the merged OID for
the path (`none` = omitted from the merged tree) and whether the path is
a conflict.  Mirrors the `if/elif` chain over
`base_oid == current_oid == target_oid` etc.; a conflict synthesizes a
new blob from the conflict-marker text. -/
def mergePathDecision (readBlob : String → Option (List Nat))
    (utf8dec : List Nat → Option Str) (utf8enc : Str → List Nat)
    (blobOid : List Nat → String)
    (base current target : FlatTree) (p : String) : Option String × Bool :=
  let b := base.lookup p
  let c := current.lookup p
  let t := target.lookup p
  if b = c ∧ c = t then (c, false)
  else if b = c then (t, false)
  else if b = t then (c, false)
  else if c = t then (c, false)
  else (some (blobOid (utf8enc (create_conflict_markers readBlob utf8dec c t))), true)

/-- `merge_trees`: the merged flattened tree and the conflict path list. -/
def merge_trees (readBlob : String → Option (List Nat))
    (utf8dec : List Nat → Option Str) (utf8enc : Str → List Nat)
    (blobOid : List Nat → String)
    (base current target : FlatTree) : FlatTree × List String :=
  let paths := allMergePaths base current target
  (paths.filterMap (fun p =>
      ((mergePathDecision readBlob utf8dec utf8enc blobOid base current target p).1).map
        (fun v => (p, v))),
   paths.filter (fun p =>
      (mergePathDecision readBlob utf8dec utf8enc blobOid base current target p).2))

/-!
## Merge base (`src/hst/commands/merge.py`, `find_merge_base`)

The commit graph is `g : oid -> parent list`; a missing or unreadable
commit is modelled by `g oid = []`, exactly the effect of
`read_object` returning `None` (the queue is simply not extended).
-/

/-- Outcome of popping one commit from one of the two BFS frontiers. -/
inductive PopResult (α : Type) where
  | found (c : α)
  | state (q : List α) (v : List α)
deriving DecidableEq

/-- One `if queue:` block of `find_merge_base`'s loop: pop the head,
return it if the other traversal has already visited it, otherwise mark
it visited and enqueue its parents (skipping commits already visited by
this traversal). -/
def bfsPop {α : Type} [DecidableEq α] (g : α → List α)
    (q vSelf vOther : List α) : PopResult α :=
  match q with
  | [] => .state [] vSelf
  | c :: rest =>
    if c ∈ vOther then .found c
    else if c ∈ vSelf then .state rest vSelf
    else .state (rest ++ g c) (c :: vSelf)

/-- `find_merge_base`'s alternating BFS loop, with explicit fuel standing
for the finiteness of the commit graph (`none` on fuel exhaustion). -/
def find_merge_base {α : Type} [DecidableEq α] (g : α → List α) :
    Nat → List α → List α → List α → List α → Option α
  | 0, _, _, _, _ => none
  | fuel + 1, q1, q2, v1, v2 =>
    if q1 = [] ∧ q2 = [] then none
    else
      match bfsPop g q1 v1 v2 with
      | .found c => some c
      | .state q1x v1x =>
        match bfsPop g q2 v2 v1x with
        | .found c => some c
        | .state q2x v2x => find_merge_base g fuel q1x q2x v1x v2x

/-- Reachability in the commit graph by following parent links
(reflexive). -/
inductive Reach {α : Type} (g : α → List α) (start : α) : α → Prop where
  | refl : Reach g start start
  | step {b c : α} : Reach g start b → c ∈ g b → Reach g start c

/-!
## Rebase engine (`src/hst/commands/rebase.py`)

Oids are `Str` here because the replayed commits are full `Commit`
values whose `parents` field holds these oids.  `g : Str -> List Str`
is the stored parent-list of each commit (missing/unreadable commit =
`[]`), matching `_get_commits_to_rebase`'s
`if not commit_obj or not commit_obj.parents: break`.
-/

/-- The first-parent step of `_get_commits_to_rebase`:
`parents[0] if parents[0] != "None" else None`, with `none` also covering
`break` on a missing commit or an empty parent list. -/
def first_parent (g : Str → List Str) (c : Str) : Option Str :=
  match g c with
  | [] => none
  | p :: _ => if p = "None".toList then none else some p

/-- The walk of `_get_commits_to_rebase`: follow first parents from the
tip, collecting commits, until the merge base (or a root/missing commit)
is reached.  Fuel stands for the acyclicity of the graph. -/
def getCommitsAux (g : Str → List Str) :
    Nat → Option Str → Str → List Str → List Str
  | 0, _, _, acc => acc
  | _ + 1, none, _, acc => acc
  | fuel + 1, some c, base, acc =>
    if c = base then acc
    else
      match g c with
      | [] => acc ++ [c]
      | p :: _ =>
        getCommitsAux g fuel (if p = "None".toList then none else some p) base
          (acc ++ [c])

/-- `_get_commits_to_rebase`: the collected walk, reversed to
chronological (oldest-first) order. -/
def get_commits_to_rebase (g : Str → List Str) (fuel : Nat)
    (merge_base target_commit : Str) : List Str :=
  (getCommitsAux g fuel (some target_commit) merge_base []).reverse

/-- A first-parent path from `c` down to (but excluding) `base`:
the list of commits `_get_commits_to_rebase` is specified to collect when
the merge base lies on the tip's first-parent chain. -/
inductive FPChain (fp : Str → Option Str) (base : Str) : Str → List Str → Prop where
  | stop {c : Str} : c ≠ base → fp c = some base → FPChain fp base c [c]
  | step {c p : Str} {l : List Str} : c ≠ base → fp c = some p →
      FPChain fp base p l → FPChain fp base c (c :: l)

/-- First-parent reachability: `base` can be reached from `c` by zero or
more first-parent steps ("`c` is a first-parent descendant of `base`"). -/
inductive FPReach (fp : Str → Option Str) : Str → Str → Prop where
  | refl {c : Str} : FPReach fp c c
  | step {c p b : Str} : fp c = some p → FPReach fp p b → FPReach fp c b

/-- `_create_rebased_commit`: same tree, author, committer, timestamps and
message as the original, single parent `new_parent`; the timezone
arguments are not forwarded, so they take the constructor default. -/
def create_rebased_commit (now : Int) (original : Commit) (new_parent : Str) : Commit :=
  mkCommit original.tree [new_parent] original.author original.committer
    original.message (some original.author_timestamp)
    (some original.committer_timestamp) "-0000".toList "-0000".toList now

/-- `_perform_rebase`: left-to-right replay of `commits` on top of
`new_base`; each step reads the original commit, builds the rebased
commit, stores it (its OID given by the content-addressing function
`hash`), and threads the new OID as the next step's parent.  Returns the
final head together with the `(oid, commit)` pairs written to the store,
or `none` when some original commit cannot be read. -/
def perform_rebase (read : Str → Option Commit) (hash : Commit → Str) (now : Int)
    (new_base : Str) : List Str → Option (Str × List (Str × Commit))
  | [] => some (new_base, [])
  | h :: rest =>
    match read h with
    | none => none
    | some original =>
      let c := create_rebased_commit now original new_base
      let oid := hash c
      match perform_rebase read hash now oid rest with
      | none => none
      | some (final, created) => some (final, (oid, c) :: created)

/-!
## Continue-merge (`src/hst/commands/merge.py`, `continue_merge`) with the
filesystem state it touches (`src/hst/repo/head.py`,
`src/hst/repo/index.py`, `src/hst/repo/worktree.py`)
-/

/-- The repository state read and written by `continue_merge`:
the merge marker files, the `HEAD` file, the branch ref files keyed by
their path under the `.hst` directory (e.g. `refs/heads/main`), the index
mapping, the live working-tree text files, and the object store (as the
list of OIDs written, newest first). -/
structure MergeRepoState where
  merge_head : Option Str
  merge_msg : Option Str
  head_file : Option Str
  refs : List (Str × Str)
  index : List (String × String)
  files : List (String × Str)
  objects : List Str
deriving DecidableEq

/-- `get_current_commit_oid` (`src/hst/repo/head.py`): follow a symbolic
`ref: ` HEAD through the branch file, else read HEAD as a detached OID;
empty contents give `None`. -/
def get_current_commit_oid (st : MergeRepoState) : Option Str :=
  match st.head_file with
  | none => none
  | some h =>
    let hc := pyStrip h
    if ("ref: ".toList).isPrefixOf hc then
      match st.refs.lookup (hc.drop 5) with
      | none => none
      | some contents =>
        let v := pyStrip contents
        if v = [] then none else some v
    else
      if hc = [] then none else some hc

/-- `update_head` (`src/hst/repo/head.py`): write the new OID through a
symbolic HEAD into the branch file, or directly into HEAD when detached.
A missing HEAD file models the `read_text` exception as a no-op edge the
engine never hits. -/
def update_head (st : MergeRepoState) (oid : Str) : MergeRepoState :=
  match st.head_file with
  | none => st
  | some h =>
    let hc := pyStrip h
    if ("ref: ".toList).isPrefixOf hc then
      { st with refs := (hc.drop 5, oid ++ ['\n']) ::
          st.refs.filter (fun r => r.1 ≠ hc.drop 5) }
    else
      { st with head_file := some (oid ++ ['\n']) }

/-- The OID of a blob with the given text content, over the digest
parameter `hash` (`Blob(data).oid()`). -/
def blobOidOf (hash : List Nat → String) (content : Str) : String :=
  hash (oidStoreBytes "blob" (strBytesL content))

/-- The OID of a commit object over the digest parameter `hash`. -/
def Commit.oid (hash : List Nat → String) (c : Commit) : String :=
  hash (oidStoreBytes "commit" (strBytesL c.serialize))

/-- `scan_working_tree(repo_root, store_blobs=True)`: hash every live
file into `path -> blob oid`. -/
def scan_working_tree (hash : List Nat → String)
    (files : List (String × Str)) : List (String × String) :=
  files.map (fun f => (f.1, blobOidOf hash f.2))

/-- Result of `continue_merge`: refused because no merge is in progress,
refused with the unresolved conflict paths, or completed with the new
merge commit's OID. -/
inductive ContinueResult where
  | noMergeInProgress
  | unresolvedConflicts (paths : List String)
  | completed (commit_oid : String)
deriving DecidableEq

/-- The residual-conflict scan of `continue_merge`: index entries whose
live file still contains both `<<<<<<< HEAD` and `>>>>>>> MERGE_HEAD`. -/
def conflictsRemaining (st : MergeRepoState) : List (String × String) :=
  st.index.filter (fun pe =>
    match st.files.lookup pe.1 with
    | none => false
    | some content =>
      containsSub content ("<<<<<<< HEAD".toList)
        && containsSub content (">>>>>>> MERGE_HEAD".toList))

/-- `continue_merge`: refuse when no merge is in progress; re-scan the
live paths for residual marker text and refuse (state unchanged) when any
remain; otherwise rebuild the index from the working tree, create the
two-parent merge commit, move HEAD and clear the merge marker files.
The second component is the repository state after the call. -/
def continue_merge (hash : List Nat → String) (now : Int)
    (st : MergeRepoState) : ContinueResult × MergeRepoState :=
  match st.merge_head with
  | none => (.noMergeInProgress, st)
  | some mh =>
    let conflicts := conflictsRemaining st
    if conflicts ≠ [] then (.unresolvedConflicts (conflicts.map Prod.fst), st)
    else
      let target_oid := pyStrip mh
      let current_oid := get_current_commit_oid st
      let message := match st.merge_msg with
        | none => "Merge commit".toList
        | some m => pyStrip m
      let current_worktree := scan_working_tree hash st.files
      let tree_oid := Tree.oid hash (create_tree_from_index current_worktree)
      let commit := mkCommit (tree_oid.toList)
        [(match current_oid with | some o => o | none => "None".toList), target_oid]
        ("User".toList) ("User".toList) message none none
        ("-0000".toList) ("-0000".toList) now
      let commit_oid := Commit.oid hash commit
      let st1 := { st with index := current_worktree,
                           objects := commit_oid.toList :: tree_oid.toList ::
                             current_worktree.map (fun pe => pe.2.toList)
                             ++ st.objects }
      let st2 := update_head st1 (commit_oid.toList)
      (.completed commit_oid, { st2 with merge_head := none, merge_msg := none })

/-!
## Object reading (`src/hst/repo/objects.py`, `read_object`)

Stored file contents and decompressed data are modelled at the byte level
as `Str` (one character per byte); `decompress` models
`zlib.decompress` (`none` = `zlib.error`); the requested class's
`deserialize` is the `deser` parameter, matching the `cls` argument.
-/

/-- Result of `read_object`: the file is missing (Python returns `None`),
an exception escapes (decompression or parse failure), or an object of
the requested class is produced. -/
inductive ReadResult (β : Type) where
  | notFound
  | exc
  | ok (o : β)
deriving DecidableEq

/-- Python `data.partition(b"\x00")`: the part before the first NUL and
the part after it (the whole string and `""` when no NUL occurs). -/
def partitionNul : Str → Str × Str
  | [] => ([], [])
  | c :: rest =>
    if c = '\x00' then ([], rest)
    else
      let r := partitionNul rest
      (c :: r.1, r.2)

/-- The kind declared by a stored object's header: the text before the
first space of the part before the first NUL. -/
def storedHeaderKind (data : Str) : Str :=
  (partitionNul data).1.takeWhile (fun c => c ≠ ' ')

/-- `read_object`: look the OID's file up, decompress, split off the
header at the first NUL, and hand the content to the requested class's
`deserialize`.  No comparison of the stored header against the requested
class is performed anywhere. -/
def read_object {β : Type} (files : Str → Option Str)
    (decompress : Str → Option Str) (deser : Str → Option β)
    (oid : Str) : ReadResult β :=
  match files oid with
  | none => .notFound
  | some raw =>
    match decompress raw with
    | none => .exc
    | some data =>
      match deser (partitionNul data).2 with
      | none => .exc
      | some o => .ok o

/-!
## Reference resolution (`src/hst/repo/refs.py`, `resolve_commit_ref`)

The bucketed object namespace is the listing of `objects/` as the
ordered list of `(subdirectory name, file names)` pairs —
`Path.iterdir` order made explicit.  `readCommit` models
`read_object(hst_dir, oid, Commit)`.
-/

/-- The filesystem state `resolve_commit_ref` consults. -/
structure RefsState where
  objectDirs : List (Str × List Str)
  readCommit : Str → Option Commit
  refsHeads : List (Str × Str)
  refsRemotes : List (Str × Str)

/-- The inner loop over one bucket: the first file whose full hash has
the requested prefix and reads back as a commit. -/
def scanBucketFiles (fs : RefsState) (ref dname : Str) : List Str → Option Str
  | [] => none
  | f :: rest =>
    let full := dname ++ f
    if ref.isPrefixOf full ∧ (fs.readCommit full).isSome then some full
    else scanBucketFiles fs ref dname rest

/-- The short-hash scan of `resolve_commit_ref`: walk the bucket
directories, and inside the bucket named by the reference's first two
characters return the first match. -/
def scanBuckets (fs : RefsState) (ref : Str) : List (Str × List Str) → Option Str
  | [] => none
  | (dname, fnames) :: rest =>
    match (if dname = ref.take 2 then scanBucketFiles fs ref dname fnames else none) with
    | some r => some r
    | none => scanBuckets fs ref rest

/-- Every full object name in the bucketed namespace that the reference
is a hex prefix of (for stating how many objects a prefix matches). -/
def prefixMatches (objectDirs : List (Str × List Str)) (ref : Str) : List Str :=
  (objectDirs.flatMap (fun d => d.2.map (fun f => d.1 ++ f))).filter
    (fun full => ref.isPrefixOf full)

/-- `resolve_commit_ref`: try a full 40-character OID, then the
short-hash scan (length at least 7), then a `remote/branch` name, then a
local branch name. -/
def resolve_commit_ref (fs : RefsState) (ref : Str) : Option Str :=
  match (if ref.length = 40 ∧ (fs.readCommit ref).isSome then some ref else none) with
  | some r => some r
  | none =>
    match (if 7 ≤ ref.length then scanBuckets fs ref fs.objectDirs else none) with
    | some r => some r
    | none =>
      match (if '/' ∈ ref then fs.refsRemotes.lookup ref else none) with
      | some contents => some (pyStrip contents)
      | none =>
        match fs.refsHeads.lookup ref with
        | some contents => some (pyStrip contents)
        | none => none

/-!
## Concrete fixtures used by witnesses and counterexamples
-/

/-- Order relations used by the sorting steps: totality of Python tuple
comparison. -/
instance : IsTotal (String × String) pairLe :=
  ⟨fun a b => by
    unfold pairLe
    rcases lt_trichotomy a.1 b.1 with h | h | h
    · exact Or.inl (Or.inl h)
    · rcases le_total a.2 b.2 with h2 | h2
      · exact Or.inl (Or.inr ⟨h, h2⟩)
      · exact Or.inr (Or.inr ⟨h.symm, h2⟩)
    · exact Or.inr (Or.inl h)⟩

/-- Transitivity of Python tuple comparison. -/
instance : IsTrans (String × String) pairLe :=
  ⟨fun a b c hab hbc => by
    unfold pairLe at *
    rcases hab with h1 | ⟨e1, l1⟩
    · rcases hbc with h2 | ⟨e2, l2⟩
      · exact Or.inl (h1.trans h2)
      · exact Or.inl (e2 ▸ h1)
    · rcases hbc with h2 | ⟨e2, l2⟩
      · exact Or.inl (e1 ▸ h2)
      · exact Or.inr ⟨e1.trans e2, l1.trans l2⟩⟩

/-- Diamond history: `A` is the single parent of both `B` and `C`. -/
def diamondParents : String → List String :=
  fun s => if s = "B" ∨ s = "C" then ["A"] else []

/-- A commit graph whose tip `T` is a merge commit with parents `X` and
`M`; `X` is a root.  The merge base `M` is reachable from `T` only
through the second parent. -/
def sideGraph : Str → List Str :=
  fun c => if c = "T".toList then ["X".toList, "M".toList] else []

/-- Trees for the conflict witness: all three sides map `a.txt` to
pairwise different blobs. -/
def baseTreeW : FlatTree := [("a.txt", "b1")]

/-- Current side of the conflict witness. -/
def currentTreeW : FlatTree := [("a.txt", "b2")]

/-- Target side of the conflict witness. -/
def targetTreeW : FlatTree := [("a.txt", "b3")]

/-- Blob store for the conflict witness. -/
def readBlobW : String → Option (List Nat) :=
  fun oid =>
    if oid = "b2" then some (strBytes "hello\n")
    else if oid = "b3" then some (strBytes "goodbye\n")
    else none

/-- Byte-level decode used in witnesses (code points back to characters). -/
def decW : List Nat → Option Str :=
  fun bs => some (bs.map Char.ofNat)

/-- Byte-level encode used in witnesses. -/
def encW : Str → List Nat := strBytesL

/-- Content-addressing stand-in used in witnesses. -/
def blobOidW : List Nat → String :=
  fun bs => toString bs.length

/-- The commit falsifying byte-exact message round-tripping: its message
carries a trailing newline. -/
def commitC2 : Commit :=
  { tree := "t0".toList, parents := [], author := "a".toList,
    committer := "b".toList, message := "hi\n".toList,
    author_timestamp := 1, committer_timestamp := 1,
    author_tz := "-0000".toList, committer_tz := "-0000".toList }

/-- Original commits replayed in the rebase witness. -/
def rebaseReadW : Str → Option Commit :=
  fun h =>
    if h = "t1".toList then
      some (mkCommit ("tr1".toList) ["m".toList] ("au".toList) ("au".toList)
        ("first".toList) (some 10) (some 10) ("-0000".toList) ("-0000".toList) 0)
    else if h = "t2".toList then
      some (mkCommit ("tr2".toList) ["t1".toList] ("au".toList) ("au".toList)
        ("second".toList) (some 20) (some 20) ("-0000".toList) ("-0000".toList) 0)
    else none

/-- Content-addressing stand-in for rebased commits in the witness. -/
def rebaseHashW : Commit → Str := fun c => '#' :: c.message

/-- Repository state for the continue-merge refusal witness: a merge is
in progress and `a.txt` still contains both conflict markers. -/
def mergeStateW : MergeRepoState :=
  { merge_head := some ("ffff\n".toList)
    merge_msg := some ("Merge commit\n".toList)
    head_file := some ("ref: refs/heads/main\n".toList)
    refs := [("refs/heads/main".toList, "eeee\n".toList)]
    index := [("a.txt", "b9")]
    files := [("a.txt", "<<<<<<< HEAD\nhello\n=======\ngoodbye\n>>>>>>> MERGE_HEAD\n".toList)]
    objects := [] }

/-- Digest stand-in for the continue-merge witness. -/
def hashW : List Nat → String := fun bs => toString bs.length

/-- Stored object for the wrong-kind read: a file whose header declares
kind `blob` but whose content happens to parse as a commit. -/
def filesC8 : Str → Option Str :=
  fun oid =>
    if oid = "aabb".toList then some ("blob 12\x00hello\n\nworld".toList) else none

/-- Deserializer for the requested kind `Commit` in the wrong-kind read. -/
def commitDeserOf (now : Int) : Str → Option Commit :=
  fun s => Commit.deserialize now s

/-- A trivially readable commit object for the reference-resolution
fixture. -/
def dummyCommit : Commit :=
  mkCommit [] [] [] [] [] none none ("-0000".toList) ("-0000".toList) 0

/-- The original-commit table for the rebase witness. -/
def origOfW : Str → Commit :=
  fun h =>
    match rebaseReadW h with
    | some c => c
    | none => dummyCommit

/-- Object namespace with two objects in bucket `aa` sharing the 7-hex
prefix `aaaaaaa`. -/
def refsStateW : RefsState :=
  { objectDirs := [("aa".toList, ["aaaaa01".toList, "aaaaa02".toList])]
    readCommit := fun _ => some dummyCommit
    refsHeads := []
    refsRemotes := [] }

/-- A linear history for the rebase-path witness:
`t2 -> t1 -> m` by first parents. -/
def lineGraph : Str → List Str :=
  fun c =>
    if c = "t2".toList then ["t1".toList]
    else if c = "t1".toList then ["m".toList]
    else []

/-!
## Claim C3: tree OID is independent of entry insertion order
-/

/-- Helper: a list sorted by entry name whose names are pairwise distinct
is sorted by strictly increasing name. -/
theorem sorted_names_strict (l : List TreeEntry)
    (hs : List.Sorted (fun a b : TreeEntry => a.2.1 ≤ b.2.1) l)
    (hn : (l.map (fun e => e.2.1)).Nodup) :
    List.Sorted (fun a b : TreeEntry => a.2.1 < b.2.1) l := by
  have hne : l.Pairwise (fun a b : TreeEntry => a.2.1 ≠ b.2.1) :=
    List.pairwise_map.mp hn
  exact (hs.and hne).imp (fun h => lt_of_le_of_ne h.1 h.2)

/-- C3: for any two entry lists that are permutations of each other with
pairwise-distinct names, the trees built by `build_tree` (which sorts by
name before serialization) have equal OIDs, for every digest function:
the OID is a pure function of the logical entry set, independent of
insertion order. -/
theorem tree_oid_independent_of_insertion_order (hash : List Nat → String)
    (l1 l2 : List TreeEntry) (hp : l1.Perm l2)
    (hn : (l1.map (fun e => e.2.1)).Nodup) :
    Tree.oid hash (build_tree_node l1) = Tree.oid hash (build_tree_node l2) := by
  haveI : IsTotal TreeEntry (fun a b : TreeEntry => a.2.1 ≤ b.2.1) :=
    ⟨fun a b => le_total _ _⟩
  haveI : IsTrans TreeEntry (fun a b : TreeEntry => a.2.1 ≤ b.2.1) :=
    ⟨fun _ _ _ h1 h2 => le_trans h1 h2⟩
  haveI : IsAntisymm TreeEntry (fun a b : TreeEntry => a.2.1 < b.2.1) :=
    ⟨fun _ _ h1 h2 => absurd h1 (not_lt.mpr (le_of_lt h2))⟩
  have hperm1 := List.perm_insertionSort (fun a b : TreeEntry => a.2.1 ≤ b.2.1) l1
  have hperm2 := List.perm_insertionSort (fun a b : TreeEntry => a.2.1 ≤ b.2.1) l2
  have hs1 := List.sorted_insertionSort (fun a b : TreeEntry => a.2.1 ≤ b.2.1) l1
  have hs2 := List.sorted_insertionSort (fun a b : TreeEntry => a.2.1 ≤ b.2.1) l2
  have hn2 : (l2.map (fun e => e.2.1)).Nodup := ((hp.map _).nodup_iff).mp hn
  have hn1s : ((List.insertionSort (fun a b : TreeEntry => a.2.1 ≤ b.2.1) l1).map
      (fun e => e.2.1)).Nodup := ((hperm1.map _).nodup_iff).mpr hn
  have hn2s : ((List.insertionSort (fun a b : TreeEntry => a.2.1 ≤ b.2.1) l2).map
      (fun e => e.2.1)).Nodup := ((hperm2.map _).nodup_iff).mpr hn2
  have key : sortEntriesByName l1 = sortEntriesByName l2 :=
    List.eq_of_perm_of_sorted (hperm1.trans (hp.trans hperm2.symm))
      (sorted_names_strict _ hs1 hn1s) (sorted_names_strict _ hs2 hn2s)
  unfold build_tree_node
  rw [key]

/-- Witness for C3 at a concrete pair of transposed entry lists. -/
theorem tree_oid_independent_of_insertion_order_witness :
    Tree.oid (fun bs => toString bs.length)
        (build_tree_node [("100644", "b", "ff"), ("100644", "a", "ee")])
      = Tree.oid (fun bs => toString bs.length)
        (build_tree_node [("100644", "a", "ee"), ("100644", "b", "ff")]) :=
  tree_oid_independent_of_insertion_order _ _ _
    (List.Perm.swap _ _ _) (by decide)

/-!
## Claim C10: merge trees are flat
-/

/-- C10: `create_tree_from_index` builds one flat tree: its entries are
exactly the index pairs sorted by path, every entry has mode `100644`
(never the subdirectory mode `040000`), the entry names are the full
relative paths verbatim, and the names appear in sorted order. -/
theorem create_tree_from_index_flat_spec (index : List (String × String)) :
    (create_tree_from_index index).entries.map (fun e => (e.2.1, e.2.2))
        = sortIndexItems index
    ∧ (∀ e ∈ (create_tree_from_index index).entries,
        e.1 = "100644" ∧ e.1 ≠ "040000")
    ∧ (∀ p o, ("100644", p, o) ∈ (create_tree_from_index index).entries
        ↔ (p, o) ∈ index)
    ∧ List.Sorted (· ≤ ·)
        ((create_tree_from_index index).entries.map (fun e => e.2.1)) := by
  refine ⟨?_, ?_, ?_, ?_⟩
  · simp [create_tree_from_index, List.map_map]
  · intro e he
    simp only [create_tree_from_index, List.mem_map] at he
    obtain ⟨pe, _, rfl⟩ := he
    refine ⟨rfl, ?_⟩
    show ("100644" : String) ≠ "040000"
    decide
  · intro p o
    constructor
    · intro h
      simp only [create_tree_from_index, List.mem_map] at h
      obtain ⟨pe, hpe, heq⟩ := h
      have h1 : pe.1 = p := congrArg (fun q => q.2.1) heq
      have h2 : pe.2 = o := congrArg (fun q => q.2.2) heq
      have : pe ∈ sortIndexItems index := hpe
      have hmem : pe ∈ index :=
        (List.perm_insertionSort pairLe index).subset this
      rw [← h1, ← h2]
      exact hmem
    · intro h
      have hmem : (p, o) ∈ sortIndexItems index :=
        ((List.perm_insertionSort pairLe index).symm).subset h
      simp only [create_tree_from_index, List.mem_map]
      exact ⟨(p, o), hmem, rfl⟩
  · have hs : List.Sorted pairLe (sortIndexItems index) :=
      List.sorted_insertionSort pairLe index
    have hfst : List.Sorted (· ≤ ·) ((sortIndexItems index).map Prod.fst) := by
      refine List.pairwise_map.mpr (hs.imp ?_)
      intro a b h
      rcases h with h | ⟨e, _⟩
      · exact le_of_lt h
      · exact le_of_eq e
    simpa [create_tree_from_index, List.map_map] using hfst

/-- Witness for C10 at a concrete index containing a nested path. -/
theorem create_tree_from_index_flat_spec_witness :
    (create_tree_from_index [("dir/a.txt", "o2"), ("a.txt", "o1")]).entries.map
        (fun e => (e.2.1, e.2.2))
      = sortIndexItems [("dir/a.txt", "o2"), ("a.txt", "o1")]
    ∧ ("100644", "dir/a.txt", "o2")
        ∈ (create_tree_from_index [("dir/a.txt", "o2"), ("a.txt", "o1")]).entries :=
  ⟨(create_tree_from_index_flat_spec _).1,
   ((create_tree_from_index_flat_spec _).2.2.1 "dir/a.txt" "o2").mpr (by decide)⟩

/-!
## Claim C1: three-way merge classification
-/

/-- Helper: looking a key up in a keyed `filterMap` misses when the key is
absent from the generating list. -/
theorem lookup_keyed_filterMap_none {β : Type} (g : String → Option β)
    (l : List String) (p : String) (hp : p ∉ l) :
    (l.filterMap (fun q => (g q).map (fun v => (q, v)))).lookup p = none := by
  induction l with
  | nil => rfl
  | cons q t ih =>
    have hpq : p ≠ q := fun h => hp (h ▸ List.mem_cons_self q t)
    have hpt : p ∉ t := fun h => hp (List.mem_cons_of_mem _ h)
    cases hg : g q with
    | none => simp [List.filterMap_cons, hg, ih hpt]
    | some v =>
      have hbq : (p == q) = false := beq_eq_false_iff_ne.mpr hpq
      simp [List.filterMap_cons, hg, List.lookup, hbq, ih hpt]

/-- Helper: over a duplicate-free key list, looking a present key up in
the keyed `filterMap` returns exactly the generator's value at that key. -/
theorem lookup_keyed_filterMap {β : Type} (g : String → Option β)
    (l : List String) (hnd : l.Nodup) (p : String) (hp : p ∈ l) :
    (l.filterMap (fun q => (g q).map (fun v => (q, v)))).lookup p = g p := by
  induction l with
  | nil => cases hp
  | cons q t ih =>
    rcases List.mem_cons.mp hp with rfl | hpt
    · have hqt : p ∉ t := (List.nodup_cons.mp hnd).1
      cases hg : g p with
      | none => simp [List.filterMap_cons, hg, lookup_keyed_filterMap_none g t p hqt]
      | some v => simp [List.filterMap_cons, hg, List.lookup]
    · have hq : q ∉ t := (List.nodup_cons.mp hnd).1
      have hpq : p ≠ q := fun h => hq (h ▸ hpt)
      have ihx := ih (List.nodup_cons.mp hnd).2 hpt
      cases hg : g q with
      | none => simpa [List.filterMap_cons, hg] using ihx
      | some v =>
        have hbq : (p == q) = false := beq_eq_false_iff_ne.mpr hpq
        simpa [List.filterMap_cons, hg, List.lookup, hbq] using ihx

/-- C1: classification performed by `merge_trees` for every path in the
union of the three flattened trees.  When only the target side changed the
merged tree takes target's value; when only the current side changed it
takes current's; when both sides agree it takes the shared value — all
three without a conflict.  When the three sides pairwise differ, the path
enters the conflict list and the merged tree maps it to the OID of a
freshly stored blob holding both sides' text framed by the conflict
delimiters. -/
theorem merge_trees_classification
    (readBlob : String → Option (List Nat)) (utf8dec : List Nat → Option Str)
    (utf8enc : Str → List Nat) (blobOid : List Nat → String)
    (base current target : FlatTree) (p : String)
    (hp : p ∈ allMergePaths base current target) :
    ((base.lookup p = current.lookup p → current.lookup p ≠ target.lookup p →
        (merge_trees readBlob utf8dec utf8enc blobOid base current target).1.lookup p
            = target.lookup p
          ∧ p ∉ (merge_trees readBlob utf8dec utf8enc blobOid base current target).2)
    ∧ (base.lookup p = target.lookup p → base.lookup p ≠ current.lookup p →
        (merge_trees readBlob utf8dec utf8enc blobOid base current target).1.lookup p
            = current.lookup p
          ∧ p ∉ (merge_trees readBlob utf8dec utf8enc blobOid base current target).2)
    ∧ (current.lookup p = target.lookup p →
        (merge_trees readBlob utf8dec utf8enc blobOid base current target).1.lookup p
            = current.lookup p
          ∧ p ∉ (merge_trees readBlob utf8dec utf8enc blobOid base current target).2)
    ∧ (base.lookup p ≠ current.lookup p → base.lookup p ≠ target.lookup p →
        current.lookup p ≠ target.lookup p →
        p ∈ (merge_trees readBlob utf8dec utf8enc blobOid base current target).2
          ∧ (merge_trees readBlob utf8dec utf8enc blobOid base current target).1.lookup p
            = some (blobOid (utf8enc (create_conflict_markers readBlob utf8dec
                (current.lookup p) (target.lookup p)))))) := by
  have hnd : (allMergePaths base current target).Nodup := List.nodup_dedup _
  have hlk : (merge_trees readBlob utf8dec utf8enc blobOid base current target).1.lookup p
      = (mergePathDecision readBlob utf8dec utf8enc blobOid base current target p).1 :=
    lookup_keyed_filterMap _ _ hnd p hp
  have hcf : (p ∈ (merge_trees readBlob utf8dec utf8enc blobOid base current target).2)
      ↔ (mergePathDecision readBlob utf8dec utf8enc blobOid base current target p).2
          = true := by
    simp only [merge_trees]
    rw [List.mem_filter]
    simp [hp]
  refine ⟨?_, ?_, ?_, ?_⟩
  · intro h1 h2
    have hdec : mergePathDecision readBlob utf8dec utf8enc blobOid base current target p
        = (target.lookup p, false) := by
      simp only [mergePathDecision]
      rw [if_neg (fun hc => h2 hc.2), if_pos h1]
    refine ⟨by rw [hlk, hdec], fun hm => ?_⟩
    have := hcf.mp hm
    rw [hdec] at this
    exact Bool.false_ne_true this
  · intro h1 h2
    have hdec : mergePathDecision readBlob utf8dec utf8enc blobOid base current target p
        = (current.lookup p, false) := by
      simp only [mergePathDecision]
      rw [if_neg (fun hc => h2 hc.1), if_neg h2, if_pos h1]
    refine ⟨by rw [hlk, hdec], fun hm => ?_⟩
    have := hcf.mp hm
    rw [hdec] at this
    exact Bool.false_ne_true this
  · intro h1
    by_cases hbc : base.lookup p = current.lookup p
    · have hdec : mergePathDecision readBlob utf8dec utf8enc blobOid base current target p
          = (current.lookup p, false) := by
        simp only [mergePathDecision]
        rw [if_pos ⟨hbc, h1⟩]
      refine ⟨by rw [hlk, hdec], fun hm => ?_⟩
      have := hcf.mp hm
      rw [hdec] at this
      exact Bool.false_ne_true this
    · have hdec : mergePathDecision readBlob utf8dec utf8enc blobOid base current target p
          = (current.lookup p, false) := by
        simp only [mergePathDecision]
        rw [if_neg (fun hc => hbc hc.1), if_neg hbc,
          if_neg (fun hbt => hbc (hbt.trans h1.symm)), if_pos h1]
      refine ⟨by rw [hlk, hdec], fun hm => ?_⟩
      have := hcf.mp hm
      rw [hdec] at this
      exact Bool.false_ne_true this
  · intro hbc hbt hct
    have hdec : mergePathDecision readBlob utf8dec utf8enc blobOid base current target p
        = (some (blobOid (utf8enc (create_conflict_markers readBlob utf8dec
            (current.lookup p) (target.lookup p)))), true) := by
      simp only [mergePathDecision]
      rw [if_neg (fun hc => hbc hc.1), if_neg hbc, if_neg hbt, if_neg hct]
    refine ⟨hcf.mpr (by rw [hdec]), by rw [hlk, hdec]⟩

/-- Witness for C1: a path changed differently on both sides yields a
conflict entry with the marker blob. -/
theorem merge_trees_classification_witness :
    "a.txt" ∈ (merge_trees readBlobW decW encW blobOidW
        baseTreeW currentTreeW targetTreeW).2
    ∧ (merge_trees readBlobW decW encW blobOidW
        baseTreeW currentTreeW targetTreeW).1.lookup ("a.txt")
      = some (blobOidW (encW (create_conflict_markers readBlobW decW
          (some "b2") (some "b3")))) := by
  have h := (merge_trees_classification readBlobW decW encW blobOidW
    baseTreeW currentTreeW targetTreeW "a.txt" (by decide)).2.2.2
    (by decide) (by decide) (by decide)
  exact ⟨h.1, by rw [h.2]; rfl⟩

/-!
## Claim C4: merge base via alternating BFS
-/

/-- Helper: a frontier pop that returns `found c` popped `c` from the
queue and found it in the other traversal's visited set. -/
theorem bfsPop_found {α : Type} [DecidableEq α] (g : α → List α)
    (q vS vO : List α) (c : α) (h : bfsPop g q vS vO = .found c) :
    c ∈ q ∧ c ∈ vO := by
  cases q with
  | nil => simp [bfsPop] at h
  | cons x rest =>
    by_cases h1 : x ∈ vO
    · simp [bfsPop, h1] at h
      subst h
      exact ⟨List.mem_cons_self _ _, h1⟩
    · by_cases h2 : x ∈ vS
      · simp [bfsPop, h1, h2] at h
      · simp [bfsPop, h1, h2] at h

/-- Helper: a frontier pop that returns a new state only moves queue
elements around: the new queue holds old queue elements or parents of an
old queue element, and the new visited set holds old visited or old queue
elements. -/
theorem bfsPop_state {α : Type} [DecidableEq α] (g : α → List α)
    (q vS vO qx vx : List α) (h : bfsPop g q vS vO = .state qx vx) :
    (∀ x ∈ qx, x ∈ q ∨ ∃ b ∈ q, x ∈ g b) ∧ (∀ x ∈ vx, x ∈ vS ∨ x ∈ q) := by
  cases q with
  | nil =>
    simp [bfsPop] at h
    obtain ⟨h1, h2⟩ := h
    subst h1
    subst h2
    exact ⟨by simp, fun x hx => Or.inl hx⟩
  | cons hd rest =>
    by_cases h1 : hd ∈ vO
    · simp [bfsPop, h1] at h
    · by_cases h2 : hd ∈ vS
      · simp [bfsPop, h1, h2] at h
        obtain ⟨h3, h4⟩ := h
        subst h3
        subst h4
        exact ⟨fun x hx => Or.inl (List.mem_cons_of_mem _ hx), fun x hx => Or.inl hx⟩
      · simp [bfsPop, h1, h2] at h
        obtain ⟨h3, h4⟩ := h
        subst h3
        subst h4
        constructor
        · intro x hx
          rcases List.mem_append.mp hx with hx | hx
          · exact Or.inl (List.mem_cons_of_mem _ hx)
          · exact Or.inr ⟨hd, List.mem_cons_self _ _, hx⟩
        · intro x hx
          rcases List.mem_cons.mp hx with rfl | hx
          · exact Or.inr (List.mem_cons_self _ _)
          · exact Or.inl hx

/-- Helper: loop invariant of `find_merge_base` — when both frontiers and
visited sets only hold commits reachable from their respective start, any
returned node is reachable from both starts. -/
theorem find_merge_base_sound {α : Type} [DecidableEq α] (g : α → List α)
    (c1 c2 : α) :
    ∀ (fuel : Nat) (q1 q2 v1 v2 : List α),
      (∀ x ∈ q1, Reach g c1 x) → (∀ x ∈ v1, Reach g c1 x) →
      (∀ x ∈ q2, Reach g c2 x) → (∀ x ∈ v2, Reach g c2 x) →
      ∀ m, find_merge_base g fuel q1 q2 v1 v2 = some m →
        Reach g c1 m ∧ Reach g c2 m := by
  intro fuel
  induction fuel with
  | zero =>
    intro q1 q2 v1 v2 _ _ _ _ m h
    simp [find_merge_base] at h
  | succ n ih =>
    intro q1 q2 v1 v2 hq1 hv1 hq2 hv2 m h
    by_cases hemp : q1 = [] ∧ q2 = []
    · simp [find_merge_base, hemp] at h
    · rw [show (n + 1) = Nat.succ n from rfl] at h
      simp only [find_merge_base] at h
      rw [if_neg hemp] at h
      cases hpop1 : bfsPop g q1 v1 v2 with
      | found c =>
        rw [hpop1] at h
        have hc : c = m := by
          simpa using h
        subst hc
        obtain ⟨hcq, hcv⟩ := bfsPop_found g q1 v1 v2 c hpop1
        exact ⟨hq1 _ hcq, hv2 _ hcv⟩
      | state q1x v1x =>
        rw [hpop1] at h
        have h2 : (match bfsPop g q2 v2 v1x with
            | PopResult.found c => some c
            | PopResult.state q2x v2x =>
              find_merge_base g n q1x q2x v1x v2x) = some m := h
        have hps1 := bfsPop_state g q1 v1 v2 q1x v1x hpop1
        have hq1x : ∀ x ∈ q1x, Reach g c1 x := by
          intro x hx
          rcases hps1.1 x hx with hx2 | ⟨b, hb, hxg⟩
          · exact hq1 _ hx2
          · exact Reach.step (hq1 _ hb) hxg
        have hv1x : ∀ x ∈ v1x, Reach g c1 x := by
          intro x hx
          rcases hps1.2 x hx with hx2 | hx2
          · exact hv1 _ hx2
          · exact hq1 _ hx2
        cases hpop2 : bfsPop g q2 v2 v1x with
        | found c =>
          rw [hpop2] at h2
          have hc : c = m := by
            simpa using h2
          subst hc
          obtain ⟨hcq, hcv⟩ := bfsPop_found g q2 v2 v1x c hpop2
          exact ⟨hv1x _ hcv, hq2 _ hcq⟩
        | state q2x v2x =>
          rw [hpop2] at h2
          have h3 : find_merge_base g n q1x q2x v1x v2x = some m := h2
          have hps2 := bfsPop_state g q2 v2 v1x q2x v2x hpop2
          have hq2x : ∀ x ∈ q2x, Reach g c2 x := by
            intro x hx
            rcases hps2.1 x hx with hx2 | ⟨b, hb, hxg⟩
            · exact hq2 _ hx2
            · exact Reach.step (hq2 _ hb) hxg
          have hv2x : ∀ x ∈ v2x, Reach g c2 x := by
            intro x hx
            rcases hps2.2 x hx with hx2 | hx2
            · exact hv2 _ hx2
            · exact hq2 _ hx2
          exact ih q1x q2x v1x v2x hq1x hv1x hq2x hv2x m h3

/-- C4: the alternating BFS of `find_merge_base` only returns commits
reachable from both inputs (the first popped node found in the other
traversal's visited set), and on the diamond history where `A` is the
single parent of `B` and `C` it returns `A`. -/
theorem find_merge_base_spec :
    (∀ (α : Type) (inst : DecidableEq α) (g : α → List α) (fuel : Nat)
        (c1 c2 m : α),
        @find_merge_base α inst g fuel [c1] [c2] [] [] = some m →
        Reach g c1 m ∧ Reach g c2 m)
    ∧ (∀ fuel : Nat, 2 ≤ fuel →
        find_merge_base diamondParents fuel ["B"] ["C"] [] [] = some "A") := by
  constructor
  · intro α inst g fuel c1 c2 m h
    refine find_merge_base_sound g c1 c2 fuel [c1] [c2] [] [] ?_ ?_ ?_ ?_ m h
    · intro x hx
      rcases List.mem_singleton.mp hx with rfl
      exact Reach.refl
    · intro x hx
      cases hx
    · intro x hx
      rcases List.mem_singleton.mp hx with rfl
      exact Reach.refl
    · intro x hx
      cases hx
  · intro fuel hf
    obtain ⟨f, rfl⟩ : ∃ f, fuel = f + 2 := ⟨fuel - 2, by omega⟩
    rfl

/-- Witness for C4 on the concrete diamond history. -/
theorem find_merge_base_spec_witness :
    find_merge_base diamondParents 2 ["B"] ["C"] [] [] = some "A"
    ∧ Reach diamondParents "B" "A" ∧ Reach diamondParents "C" "A" := by
  have hd := find_merge_base_spec.2 2 (le_refl 2)
  have hs := find_merge_base_spec.1 String inferInstance diamondParents 2
    "B" "C" "A" hd
  exact ⟨hd, hs⟩

/-!
## Claim C5: commits selected for replay
-/

/-- Helper: the walk stops immediately when the current commit is the
merge base. -/
theorem getCommitsAux_base (g : Str → List Str) (f : Nat) (base : Str)
    (acc : List Str) :
    getCommitsAux g f (some base) base acc = acc := by
  cases f with
  | zero => rfl
  | succ f2 =>
    simp [getCommitsAux]

/-- Helper: one unfolding of the walk at a commit that is not the merge
base. -/
theorem getCommitsAux_cons (g : Str → List Str) (fuel : Nat) (c base : Str)
    (acc : List Str) (hne : c ≠ base) :
    getCommitsAux g (fuel + 1) (some c) base acc =
      (match g c with
      | [] => acc ++ [c]
      | p :: _ => getCommitsAux g fuel
          (if p = "None".toList then none else some p) base (acc ++ [c])) := by
  simp only [getCommitsAux]
  rw [if_neg hne]

/-- Helper: along a first-parent path to the merge base, the walk
collects exactly the path. -/
theorem getCommitsAux_of_chain (g : Str → List Str) (base : Str) :
    ∀ {c : Str} {l : List Str}, FPChain (first_parent g) base c l →
      ∀ (fuel : Nat) (acc : List Str), l.length ≤ fuel →
        getCommitsAux g fuel (some c) base acc = acc ++ l := by
  intro c l hchain
  induction hchain with
  | @stop c hne hfp =>
    intro fuel acc hf
    have hf1 : 1 ≤ fuel := by simpa using hf
    obtain ⟨f, rfl⟩ : ∃ f, fuel = f + 1 := ⟨fuel - 1, by omega⟩
    rw [getCommitsAux_cons g f c base acc hne]
    cases hg : g c with
    | nil => simp [first_parent, hg] at hfp
    | cons q rest =>
      by_cases hqn : q = "None".toList
      · simp [first_parent, hg, hqn] at hfp
      · simp [first_parent, hg, hqn] at hfp
        show getCommitsAux g f (if q = "None".toList then none else some q) base
          (acc ++ [c]) = acc ++ [c]
        rw [if_neg hqn, hfp.2]
        exact getCommitsAux_base g f base (acc ++ [c])
  | @step c p l hne hfp hch ih =>
    intro fuel acc hf
    have hf2 : l.length + 1 ≤ fuel := by simpa using hf
    obtain ⟨f, rfl⟩ : ∃ f, fuel = f + 1 := ⟨fuel - 1, by omega⟩
    rw [getCommitsAux_cons g f c base acc hne]
    cases hg : g c with
    | nil => simp [first_parent, hg] at hfp
    | cons q rest =>
      by_cases hqn : q = "None".toList
      · simp [first_parent, hg, hqn] at hfp
      · simp [first_parent, hg, hqn] at hfp
        show getCommitsAux g f (if q = "None".toList then none else some q) base
          (acc ++ [c]) = acc ++ (c :: l)
        rw [if_neg hqn, hfp.2]
        rw [ih f (acc ++ [c]) (by omega)]
        simp
  
/-- Helper: the head of a first-parent path is a first-parent descendant
of the merge base. -/
theorem fpchain_reach (fp : Str → Option Str) (base : Str) :
    ∀ {c : Str} {l : List Str}, FPChain fp base c l → FPReach fp c base := by
  intro c l h
  induction h with
  | @stop c hne hfp => exact FPReach.step hfp FPReach.refl
  | @step c p l hne hfp hch ih => exact FPReach.step hfp ih

/-- Helper: every commit on a first-parent path is a first-parent
descendant of the merge base. -/
theorem fpchain_mem_reach (fp : Str → Option Str) (base : Str) :
    ∀ {c : Str} {l : List Str}, FPChain fp base c l →
      ∀ x ∈ l, FPReach fp x base := by
  intro c l h
  induction h with
  | @stop c hne hfp =>
    intro x hx
    rcases List.mem_singleton.mp hx with rfl
    exact FPReach.step hfp FPReach.refl
  | @step c p l hne hfp hch ih =>
    intro x hx
    rcases List.mem_cons.mp hx with rfl | hx
    · exact FPReach.step hfp (fpchain_reach fp base hch)
    · exact ih x hx

/-- C5 (amended): when the merge base lies on the tip's first-parent
chain, `_get_commits_to_rebase` returns exactly that chain — merge base
exclusive, tip inclusive — reversed to chronological order, and every
selected commit is a first-parent descendant of the merge base. -/
theorem get_commits_to_rebase_first_parent_path
    (g : Str → List Str) (base tip : Str) (l : List Str) (fuel : Nat)
    (hchain : FPChain (first_parent g) base tip l) (hfuel : l.length ≤ fuel) :
    get_commits_to_rebase g fuel base tip = l.reverse
    ∧ ∀ x ∈ l, FPReach (first_parent g) x base := by
  constructor
  · unfold get_commits_to_rebase
    rw [getCommitsAux_of_chain g base hchain fuel [] hfuel]
    simp
  · exact fpchain_mem_reach (first_parent g) base hchain

/-- Witness for C5 on a concrete linear history. -/
theorem get_commits_to_rebase_first_parent_path_witness :
    get_commits_to_rebase lineGraph 10 ("m".toList) ("t2".toList)
      = ["t2".toList, "t1".toList].reverse
    ∧ ∀ x ∈ ["t2".toList, "t1".toList],
        FPReach (first_parent lineGraph) x ("m".toList) := by
  have hch : FPChain (first_parent lineGraph) ("m".toList) ("t2".toList)
      ["t2".toList, "t1".toList] :=
    FPChain.step (by decide) (by decide) (FPChain.stop (by decide) (by decide))
  exact get_commits_to_rebase_first_parent_path lineGraph ("m".toList)
    ("t2".toList) _ 10 hch (by decide)

/-- Counterexample for C5 as stated: when the merge base is reachable
from the tip only through a second parent, the walk runs past it to a
root and returns a commit that is not a first-parent descendant of the
merge base. -/
theorem get_commits_to_rebase_escapes_merge_base :
    "X".toList ∈ get_commits_to_rebase sideGraph 10 ("M".toList) ("T".toList)
    ∧ ¬ FPReach (first_parent sideGraph) ("X".toList) ("M".toList) := by
  constructor
  · decide
  · intro h
    cases h with
    | step hfp hr =>
      have hx : first_parent sideGraph ("X".toList) = none := by decide
      rw [hx] at hfp
      exact Option.noConfusion hfp

/-!
## Claim C6: rebase replay preserves trees and messages and chains parents
-/

/-- C6: a successful sequential replay produces, for each original
commit in order, a new commit carrying the original's tree OID and
message verbatim, whose single parent is the previous replay output (the
new base for the first), and the returned head is the last new OID (the
new base when nothing is replayed). -/
theorem perform_rebase_chain
    (read : Str → Option Commit) (hash : Commit → Str) (now : Int)
    (origOf : Str → Commit) (commits : List Str) (new_base : Str)
    (hread : ∀ h ∈ commits, read h = some (origOf h)) :
    ∃ (final : Str) (created : List (Str × Commit)),
      perform_rebase read hash now new_base commits = some (final, created)
      ∧ created.map (fun pc => pc.2.tree) = commits.map (fun h => (origOf h).tree)
      ∧ created.map (fun pc => pc.2.message)
          = commits.map (fun h => (origOf h).message)
      ∧ created.map (fun pc => pc.2.parents)
          = ((new_base :: created.map Prod.fst).dropLast).map (fun o => [o])
      ∧ (new_base :: created.map Prod.fst).getLast? = some final := by
  induction commits generalizing new_base with
  | nil => exact ⟨new_base, [], rfl, rfl, rfl, by simp, by simp⟩
  | cons h rest ih =>
    have hh : read h = some (origOf h) := hread h (List.mem_cons_self _ _)
    have hrest : ∀ x ∈ rest, read x = some (origOf x) :=
      fun x hx => hread x (List.mem_cons_of_mem _ hx)
    obtain ⟨final, created, heq, ht, hm, hp, hl⟩ :=
      ih (hash (create_rebased_commit now (origOf h) new_base)) hrest
    refine ⟨final,
      (hash (create_rebased_commit now (origOf h) new_base),
        create_rebased_commit now (origOf h) new_base) :: created,
      ?_, ?_, ?_, ?_, ?_⟩
    · simp only [perform_rebase, hh]
      rw [heq]
    · simpa [create_rebased_commit, mkCommit] using ht
    · simpa [create_rebased_commit, mkCommit] using hm
    · simp only [List.map_cons, List.dropLast_cons₂]
      rw [hp]
      simp [create_rebased_commit, mkCommit]
    · simpa [List.getLast?_cons_cons] using hl

/-- Witness for C6 on a two-commit topic branch. -/
theorem perform_rebase_chain_witness :
    ∃ (final : Str) (created : List (Str × Commit)),
      perform_rebase rebaseReadW rebaseHashW 0 ("m".toList)
          ["t1".toList, "t2".toList] = some (final, created)
      ∧ created.map (fun pc => pc.2.tree)
          = (["t1".toList, "t2".toList]).map (fun h => (origOfW h).tree)
      ∧ created.map (fun pc => pc.2.message)
          = (["t1".toList, "t2".toList]).map (fun h => (origOfW h).message)
      ∧ created.map (fun pc => pc.2.parents)
          = ((("m".toList) :: created.map Prod.fst).dropLast).map (fun o => [o])
      ∧ (("m".toList) :: created.map Prod.fst).getLast? = some final :=
  perform_rebase_chain rebaseReadW rebaseHashW 0 origOfW
    ["t1".toList, "t2".toList] ("m".toList) (by decide)

/-!
## Claim C7: continue-merge refuses while conflict markers remain
-/

/-- C7: when a merge is in progress and some indexed path's live file
still contains both conflict markers, `continue_merge` refuses with the
unresolved-conflicts error and returns the repository state unchanged —
in particular no commit is created, HEAD does not move, and `MERGE_HEAD`
remains present. -/
theorem continue_merge_refuses_unresolved
    (hash : List Nat → String) (now : Int) (st : MergeRepoState)
    (mh : Str) (hmh : st.merge_head = some mh)
    (p o : String) (hpo : (p, o) ∈ st.index)
    (content : Str) (hc : st.files.lookup p = some content)
    (h1 : containsSub content ("<<<<<<< HEAD".toList) = true)
    (h2 : containsSub content (">>>>>>> MERGE_HEAD".toList) = true) :
    ∃ conflicts : List String,
      continue_merge hash now st = (.unresolvedConflicts conflicts, st)
      ∧ conflicts ≠ []
      ∧ (continue_merge hash now st).2.merge_head = some mh := by
  have hmem : (p, o) ∈ conflictsRemaining st := by
    unfold conflictsRemaining
    refine List.mem_filter.mpr ⟨hpo, ?_⟩
    simp [hc]
    exact ⟨by simpa using h1, by simpa using h2⟩
  have hne : conflictsRemaining st ≠ [] := List.ne_nil_of_mem hmem
  have hres : continue_merge hash now st
      = (.unresolvedConflicts ((conflictsRemaining st).map Prod.fst), st) := by
    simp only [continue_merge, hmh]
    rw [if_pos hne]
  refine ⟨(conflictsRemaining st).map Prod.fst, hres, ?_, ?_⟩
  · simpa using hne
  · rw [hres, hmh]

/-- Witness for C7 on a concrete in-progress merge with marker text
remaining in `a.txt`. -/
theorem continue_merge_refuses_unresolved_witness :
    ∃ conflicts : List String,
      continue_merge hashW 0 mergeStateW
        = (.unresolvedConflicts conflicts, mergeStateW)
      ∧ conflicts ≠ []
      ∧ (continue_merge hashW 0 mergeStateW).2.merge_head
          = some ("ffff\n".toList) :=
  continue_merge_refuses_unresolved hashW 0 mergeStateW ("ffff\n".toList)
    (by decide) "a.txt" "b9" (by decide)
    ("<<<<<<< HEAD\nhello\n=======\ngoodbye\n>>>>>>> MERGE_HEAD\n".toList)
    (by decide) (by decide) (by decide)

/-!
## Claim C8: kind checking in `read_object`
-/

/-- Helper: `partition` at the first NUL recovers a NUL-free header and
the body. -/
theorem partitionNul_append (header body : Str) (hh : '\x00' ∉ header) :
    partitionNul (header ++ '\x00' :: body) = (header, body) := by
  induction header with
  | nil => simp [partitionNul]
  | cons c t ih =>
    have hc : c ≠ '\x00' := fun h => hh (h ▸ List.mem_cons_self _ _)
    have ht : '\x00' ∉ t := fun h => hh (List.mem_cons_of_mem _ h)
    simp [partitionNul, hc, ih ht]

/-- C8 (amended): `read_object` fails with `notFound` only when the OID
has no backing file and propagates a decompression failure as an
exception, but performs no comparison of the stored header's kind with
the requested class: whenever the content after the NUL deserializes as
the requested class, the object is returned — whatever kind the header
declares. -/
theorem read_object_no_kind_check {β : Type}
    (files : Str → Option Str) (decompress : Str → Option Str)
    (deser : Str → Option β) (oid : Str) :
    (files oid = none → read_object files decompress deser oid = .notFound)
    ∧ (∀ raw, files oid = some raw → decompress raw = none →
        read_object files decompress deser oid = .exc)
    ∧ (∀ raw header body o, files oid = some raw →
        decompress raw = some (header ++ '\x00' :: body) → '\x00' ∉ header →
        deser body = some o →
        read_object files decompress deser oid = .ok o) := by
  refine ⟨?_, ?_, ?_⟩
  · intro h
    simp [read_object, h]
  · intro raw h1 h2
    simp [read_object, h1, h2]
  · intro raw header body o h1 h2 hh h3
    simp [read_object, h1, h2, partitionNul_append header body hh, h3]

/-- Witness for C8: the blob-headed object is returned as a commit, and a
missing OID reports not-found. -/
theorem read_object_no_kind_check_witness :
    read_object filesC8 some (commitDeserOf 7) ("aabb".toList)
      = .ok (mkCommit [] [] [] [] ("world".toList) none none
          ("-0000".toList) ("-0000".toList) 7)
    ∧ read_object filesC8 some (commitDeserOf 7) ("zz".toList) = .notFound :=
  ⟨(read_object_no_kind_check filesC8 some (commitDeserOf 7) ("aabb".toList)).2.2
      ("blob 12\x00hello\n\nworld".toList) ("blob 12".toList)
      ("hello\n\nworld".toList)
      (mkCommit [] [] [] [] ("world".toList) none none
        ("-0000".toList) ("-0000".toList) 7)
      (by decide) (by decide) (by decide) (by decide),
   (read_object_no_kind_check filesC8 some (commitDeserOf 7) ("zz".toList)).1
      (by decide)⟩

/-- Counterexample for C8 as stated: a stored object whose header
declares kind `blob`, read with expected kind commit, is not rejected —
`read_object` returns a commit deserialized from the blob's content. -/
theorem read_object_wrong_kind_accepted :
    storedHeaderKind ("blob 12\x00hello\n\nworld".toList) = "blob".toList
    ∧ ("blob".toList : Str) ≠ "commit".toList
    ∧ read_object filesC8 some (commitDeserOf 7) ("aabb".toList)
        = .ok (mkCommit [] [] [] [] ("world".toList) none none
            ("-0000".toList) ("-0000".toList) 7) := by
  refine ⟨by decide, by decide, by decide⟩

/-!
## Claim C9: ambiguous short-hash prefixes
-/

/-- Helper: the bucket file scan returns a full name from the bucket with
the requested prefix. -/
theorem scanBucketFiles_mem (fs : RefsState) (ref dname : Str) :
    ∀ (fnames : List Str) (m : Str),
      scanBucketFiles fs ref dname fnames = some m →
      m ∈ fnames.map (fun f => dname ++ f) ∧ ref.isPrefixOf m = true := by
  intro fnames
  induction fnames with
  | nil =>
    intro m h
    simp [scanBucketFiles] at h
  | cons f rest ih =>
    intro m h
    simp only [scanBucketFiles] at h
    by_cases hcond : ref.isPrefixOf (dname ++ f) ∧ (fs.readCommit (dname ++ f)).isSome
    · rw [if_pos hcond] at h
      have hm : dname ++ f = m := by
        simpa using h
      subst hm
      exact ⟨List.mem_map_of_mem _ (List.mem_cons_self _ _), hcond.1⟩
    · rw [if_neg hcond] at h
      obtain ⟨hmem, hpre⟩ := ih m h
      exact ⟨List.mem_cons_of_mem _ hmem, hpre⟩

/-- Helper: the bucket-directory scan returns an element of the prefix
match set. -/
theorem scanBuckets_mem (fs : RefsState) (ref : Str) :
    ∀ (dirs : List (Str × List Str)) (m : Str),
      scanBuckets fs ref dirs = some m → m ∈ prefixMatches dirs ref := by
  intro dirs
  induction dirs with
  | nil =>
    intro m h
    simp [scanBuckets] at h
  | cons d rest ih =>
    intro m h
    simp only [scanBuckets] at h
    cases hscan : (if d.1 = ref.take 2 then scanBucketFiles fs ref d.1 d.2 else none) with
    | some r =>
      rw [hscan] at h
      have hm : r = m := by
        simpa using h
      subst hm
      by_cases hd : d.1 = ref.take 2
      · rw [if_pos hd] at hscan
        obtain ⟨hmem, hpre⟩ := scanBucketFiles_mem fs ref d.1 d.2 r hscan
        refine List.mem_filter.mpr ⟨?_, hpre⟩
        exact List.mem_flatMap.mpr ⟨d, List.mem_cons_self _ _, hmem⟩
      · rw [if_neg hd] at hscan
        exact Option.noConfusion hscan
    | none =>
      rw [hscan] at h
      have h2 : scanBuckets fs ref rest = some m := h
      have hmem := ih m h2
      obtain ⟨hin, hpre⟩ := List.mem_filter.mp hmem
      refine List.mem_filter.mpr ⟨?_, hpre⟩
      obtain ⟨b, hb, hbm⟩ := List.mem_flatMap.mp hin
      exact List.mem_flatMap.mpr ⟨b, List.mem_cons_of_mem _ hb, hbm⟩

/-- C9 (amended): for a reference of length at least 7 (and not 40) the
scan of the bucketed namespace returns the first matching object in
directory-listing order as the resolved commit — the result is one of the
(possibly several) objects the prefix matches, and no ambiguity failure
exists. -/
theorem resolve_commit_ref_first_match (fs : RefsState) (ref m : Str)
    (h40 : ref.length ≠ 40) (h7 : 7 ≤ ref.length)
    (hscan : scanBuckets fs ref fs.objectDirs = some m) :
    resolve_commit_ref fs ref = some m ∧ m ∈ prefixMatches fs.objectDirs ref := by
  constructor
  · have step : resolve_commit_ref fs ref =
        (match (if 7 ≤ ref.length then scanBuckets fs ref fs.objectDirs else none) with
         | some r => some r
         | none =>
           (match (if '/' ∈ ref then fs.refsRemotes.lookup ref else none) with
            | some contents => some (pyStrip contents)
            | none =>
              match fs.refsHeads.lookup ref with
              | some contents => some (pyStrip contents)
              | none => none)) := by
      simp only [resolve_commit_ref]
      rw [if_neg (fun hc => h40 hc.1)]
    rw [step, if_pos h7, hscan]
  · exact scanBuckets_mem fs ref fs.objectDirs m hscan

/-- Witness for C9's amended statement on the two-object fixture. -/
theorem resolve_commit_ref_first_match_witness :
    resolve_commit_ref refsStateW ("aaaaaaa".toList) = some ("aaaaaaa01".toList)
    ∧ ("aaaaaaa01".toList : Str)
        ∈ prefixMatches refsStateW.objectDirs ("aaaaaaa".toList) :=
  resolve_commit_ref_first_match refsStateW ("aaaaaaa".toList)
    ("aaaaaaa01".toList) (by decide) (by decide) (by decide)

/-- Counterexample for C9 as stated: the 7-hex prefix matches two objects
in the bucketed namespace, yet resolution does not fail — it returns the
first match. -/
theorem resolve_commit_ref_no_ambiguity_failure :
    (prefixMatches refsStateW.objectDirs ("aaaaaaa".toList)).length = 2
    ∧ resolve_commit_ref refsStateW ("aaaaaaa".toList)
        = some ("aaaaaaa01".toList) := by
  refine ⟨by decide, by decide⟩

/-!
## Claim C2: commit message round-trip
-/

/-- Helper: the code point of a digit character. -/
theorem digitChar_toNat (d : Nat) (h : d < 10) : (digitChar d).toNat = 48 + d := by
  interval_cases d <;> rfl

/-- Helper: digit characters lie between `0` and `9`. -/
theorem digitChar_bounds (d : Nat) (h : d < 10) :
    '0' ≤ digitChar d ∧ digitChar d ≤ '9' := by
  interval_cases d <;> exact ⟨by decide, by decide⟩

/-- Helper: with sufficient fuel, the digit expansion consists of digit
characters, is nonempty, and evaluates back to the number. -/
theorem natDigitsRevFuel_spec :
    ∀ (fuel n : Nat), n < fuel →
      (∀ ch ∈ natDigitsRevFuel fuel n, '0' ≤ ch ∧ ch ≤ '9')
      ∧ (natDigitsRevFuel fuel n).foldr
          (fun ch acc => acc * 10 + (ch.toNat - 48)) 0 = n
      ∧ natDigitsRevFuel fuel n ≠ [] := by
  intro fuel
  induction fuel with
  | zero =>
    intro n h
    omega
  | succ f ih =>
    intro n hn
    by_cases h10 : n < 10
    · simp only [natDigitsRevFuel]
      rw [if_pos h10]
      refine ⟨?_, ?_, by simp⟩
      · intro ch hch
        rcases List.mem_singleton.mp hch with rfl
        exact digitChar_bounds n h10
      · show 0 * 10 + ((digitChar n).toNat - 48) = n
        rw [digitChar_toNat n h10]
        omega
    · simp only [natDigitsRevFuel]
      rw [if_neg h10]
      have hlt : n / 10 < n := Nat.div_lt_self (by omega) (by omega)
      have hdiv : n / 10 < f := by omega
      obtain ⟨ha, hb, _⟩ := ih (n / 10) hdiv
      refine ⟨?_, ?_, by simp⟩
      · intro ch hch
        rcases List.mem_cons.mp hch with rfl | hch
        · exact digitChar_bounds _ (Nat.mod_lt _ (by omega))
        · exact ha ch hch
      · show ((natDigitsRevFuel f (n / 10)).foldr
            (fun ch acc => acc * 10 + (ch.toNat - 48)) 0) * 10
            + ((digitChar (n % 10)).toNat - 48) = n
        rw [hb, digitChar_toNat _ (Nat.mod_lt _ (by omega))]
        omega

/-- Helper: `str(n)` consists of digit characters. -/
theorem natToStr_digits (n : Nat) : ∀ ch ∈ natToStr n, '0' ≤ ch ∧ ch ≤ '9' := by
  intro ch hch
  exact (natDigitsRevFuel_spec (n + 1) n (by omega)).1 ch (List.mem_reverse.mp hch)

/-- Helper: `str(n)` is nonempty. -/
theorem natToStr_ne_nil (n : Nat) : natToStr n ≠ [] := by
  have h := (natDigitsRevFuel_spec (n + 1) n (by omega)).2.2
  simp only [natToStr, natDigitsRev, ne_eq, List.reverse_eq_nil_iff]
  exact h

/-- Helper: parsing `str(n)` recovers `n`. -/
theorem parseNat_natToStr (n : Nat) : parseNat (natToStr n) = some n := by
  obtain ⟨ha, hb, _⟩ := natDigitsRevFuel_spec (n + 1) n (by omega)
  have hall : (natToStr n).all (fun c => (digitVal c).isSome) = true := by
    apply List.all_eq_true.mpr
    intro ch hch
    have hbd := natToStr_digits n ch hch
    simp [digitVal, hbd.1, hbd.2]
  unfold parseNat
  rw [if_neg (natToStr_ne_nil n), if_pos hall]
  congr 1
  show (natToStr n).foldl (fun acc c => acc * 10 + (c.toNat - 48)) 0 = n
  unfold natToStr natDigitsRev
  rw [List.foldl_reverse]
  exact hb

/-- Helper: on an all-digit string, `int()` takes the unsigned branch. -/
theorem parseInt_digits (s : Str) (hd : ∀ ch ∈ s, '0' ≤ ch ∧ ch ≤ '9') :
    parseInt s = (parseNat s).map (fun n => (n : Int)) := by
  cases s with
  | nil => rfl
  | cons c rest =>
    have hc := hd c (List.mem_cons_self _ _)
    have hc1 : c ≠ '-' := by
      intro h
      subst h
      exact absurd hc.1 (by decide)
    have hc2 : c ≠ '+' := by
      intro h
      subst h
      exact absurd hc.1 (by decide)
    unfold parseInt
    split
    · rename_i rest2 heq
      injection heq with h1 _
      exact absurd h1 hc1
    · rename_i rest2 heq
      injection heq with h1 _
      exact absurd h1 hc2
    · rfl

/-- Helper: parsing `str(t)` recovers the integer `t`. -/
theorem parseInt_intToStr (t : Int) : parseInt (intToStr t) = some t := by
  by_cases h : t < 0
  · unfold intToStr
    rw [if_pos h]
    show (parseNat (natToStr (-t).toNat)).map (fun n => -(n : Int)) = some t
    rw [parseNat_natToStr]
    show some (-(((-t).toNat : Nat) : Int)) = some t
    congr 1
    omega
  · unfold intToStr
    rw [if_neg h]
    rw [parseInt_digits _ (natToStr_digits _), parseNat_natToStr]
    show some ((t.toNat : Nat) : Int) = some t
    congr 1
    omega

/-- Helper: the blank-line split passes over a newline-free prefix. -/
theorem splitDoubleNL_skip (l y : Str) (hnl : '\n' ∉ l) :
    splitDoubleNL (l ++ y)
      = (l ++ (splitDoubleNL y).1, (splitDoubleNL y).2) := by
  induction l with
  | nil => simp
  | cons c t ih =>
    have hc : c ≠ '\n' := fun h => hnl (h ▸ List.mem_cons_self _ _)
    have ht : '\n' ∉ t := fun h => hnl (List.mem_cons_of_mem _ h)
    cases t with
    | nil =>
      cases y with
      | nil => simp [splitDoubleNL]
      | cons d y2 =>
        show splitDoubleNL (c :: d :: y2)
          = (c :: (splitDoubleNL (d :: y2)).1, (splitDoubleNL (d :: y2)).2)
        simp only [splitDoubleNL]
        rw [if_neg (fun hh => hc hh.1)]
    | cons d t2 =>
      have hih := ih ht
      show splitDoubleNL (c :: ((d :: t2) ++ y))
        = (c :: ((d :: t2) ++ (splitDoubleNL y).1), (splitDoubleNL y).2)
      simp only [List.cons_append] at hih ⊢
      simp only [splitDoubleNL]
      rw [if_neg (fun hh => hc hh.1)]
      rw [hih]

/-- Helper: the blank-line split fires at a leading separator. -/
theorem splitDoubleNL_sep (m : Str) :
    splitDoubleNL ('\n' :: '\n' :: m) = ([], some m) := by
  simp [splitDoubleNL]

/-- Helper: one newline-free line followed by the separator splits
exactly there. -/
theorem splitDoubleNL_line (l m : Str) (hnl : '\n' ∉ l) :
    splitDoubleNL (l ++ '\n' :: '\n' :: m) = (l, some m) := by
  rw [splitDoubleNL_skip l _ hnl, splitDoubleNL_sep]
  simp

/-- Helper: joined nonempty newline-free lines followed by the separator
split exactly at the separator. -/
theorem splitDoubleNL_joinNL (ls : List Str) (m : Str)
    (hne : ∀ l ∈ ls, l ≠ []) (hnl : ∀ l ∈ ls, '\n' ∉ l) (h0 : ls ≠ []) :
    splitDoubleNL (joinNL ls ++ '\n' :: '\n' :: m) = (joinNL ls, some m) := by
  induction ls with
  | nil => exact absurd rfl h0
  | cons l ls ih =>
    cases ls with
    | nil =>
      show splitDoubleNL (l ++ '\n' :: '\n' :: m) = (l, some m)
      exact splitDoubleNL_line l m (hnl l (List.mem_cons_self _ _))
    | cons l2 ls2 =>
      obtain ⟨d, l2t, rfl⟩ : ∃ d l2t, l2 = d :: l2t := by
        cases hcase : l2 with
        | nil =>
          exact absurd (hcase ▸ List.mem_cons_of_mem _ (List.mem_cons_self _ _))
            (fun hm => hne [] hm rfl)
        | cons a b => exact ⟨a, b, rfl⟩
      have hd : d ≠ '\n' := by
        intro h
        exact hnl (d :: l2t) (List.mem_cons_of_mem _ (List.mem_cons_self _ _))
          (h ▸ List.mem_cons_self _ _)
      have hjoin : joinNL (l :: (d :: l2t) :: ls2)
          = l ++ '\n' :: joinNL ((d :: l2t) :: ls2) := rfl
      rw [hjoin, List.append_assoc]
      rw [splitDoubleNL_skip l _ (hnl l (List.mem_cons_self _ _))]
      obtain ⟨z, hz⟩ : ∃ z, joinNL ((d :: l2t) :: ls2) ++ '\n' :: '\n' :: m
          = d :: z := by
        cases ls2 with
        | nil => exact ⟨l2t ++ '\n' :: '\n' :: m, rfl⟩
        | cons l3 ls3 =>
          exact ⟨(l2t ++ '\n' :: joinNL (l3 :: ls3)) ++ '\n' :: '\n' :: m,
            by simp [joinNL]⟩
      have hih := ih (fun x hx => hne x (List.mem_cons_of_mem _ hx))
        (fun x hx => hnl x (List.mem_cons_of_mem _ hx)) (by simp)
      show (l ++ (splitDoubleNL ('\n' :: (joinNL ((d :: l2t) :: ls2)
          ++ '\n' :: '\n' :: m))).1,
        (splitDoubleNL ('\n' :: (joinNL ((d :: l2t) :: ls2)
          ++ '\n' :: '\n' :: m))).2) = (l ++ '\n' :: joinNL ((d :: l2t) :: ls2), some m)
      rw [hz]
      have hsd : splitDoubleNL ('\n' :: d :: z)
          = ('\n' :: (splitDoubleNL (d :: z)).1, (splitDoubleNL (d :: z)).2) := by
        simp only [splitDoubleNL]
        rw [if_neg (fun hh => hd hh.2)]
      rw [hsd, ← hz, hih]

/-- Helper: splitting a newline-free string on newlines returns the
string whole. -/
theorem splitNL_nlfree (l : Str) (hnl : '\n' ∉ l) : splitNL l = [l] := by
  induction l with
  | nil => rfl
  | cons c t ih =>
    have hc : c ≠ '\n' := fun h => hnl (h ▸ List.mem_cons_self _ _)
    have ht : '\n' ∉ t := fun h => hnl (List.mem_cons_of_mem _ h)
    simp [splitNL, hc, ih ht]

/-- Helper: splitting peels one newline-free line at its newline. -/
theorem splitNL_append (l rest : Str) (hnl : '\n' ∉ l) :
    splitNL (l ++ '\n' :: rest) = l :: splitNL rest := by
  induction l with
  | nil => rfl
  | cons c t ih =>
    have hc : c ≠ '\n' := fun h => hnl (h ▸ List.mem_cons_self _ _)
    have ht : '\n' ∉ t := fun h => hnl (List.mem_cons_of_mem _ h)
    simp [splitNL, hc, ih ht]

/-- Helper: splitting on newlines inverts joining newline-free lines. -/
theorem splitNL_joinNL (ls : List Str) (hnl : ∀ l ∈ ls, '\n' ∉ l)
    (h0 : ls ≠ []) : splitNL (joinNL ls) = ls := by
  induction ls with
  | nil => exact absurd rfl h0
  | cons l ls ih =>
    cases ls with
    | nil => exact splitNL_nlfree l (hnl l (List.mem_cons_self _ _))
    | cons l2 ls2 =>
      show splitNL (l ++ '\n' :: joinNL (l2 :: ls2)) = l :: l2 :: ls2
      rw [splitNL_append l _ (hnl l (List.mem_cons_self _ _))]
      rw [ih (fun x hx => hnl x (List.mem_cons_of_mem _ hx)) (by simp)]

/-- Helper: joining lines then a blank line and the message is joining
the lines followed by the blank-line separator and the message. -/
theorem joinNL_append_blank (ls : List Str) (m : Str) (h : ls ≠ []) :
    joinNL (ls ++ [[], m]) = joinNL ls ++ '\n' :: '\n' :: m := by
  induction ls with
  | nil => exact absurd rfl h
  | cons l ls ih =>
    cases ls with
    | nil => rfl
    | cons l2 ls2 =>
      show l ++ '\n' :: joinNL ((l2 :: ls2) ++ [[], m])
        = (l ++ '\n' :: joinNL (l2 :: ls2)) ++ '\n' :: '\n' :: m
      rw [ih (by simp)]
      simp

/-- Helper: a space-free string has no last space. -/
theorem splitLastSpace_nospace (s : Str) (h : ' ' ∉ s) :
    splitLastSpace s = none := by
  induction s with
  | nil => rfl
  | cons c t ih =>
    have hc : c ≠ ' ' := fun hh => h (hh ▸ List.mem_cons_self _ _)
    have ht : ' ' ∉ t := fun hh => h (List.mem_cons_of_mem _ hh)
    simp [splitLastSpace, ih ht, hc]

/-- Helper: the last space before a space-free tail is found exactly
there. -/
theorem splitLastSpace_append (b a : Str) (ha : ' ' ∉ a) :
    splitLastSpace (b ++ ' ' :: a) = some (b, a) := by
  induction b with
  | nil =>
    show splitLastSpace (' ' :: a) = some ([], a)
    simp [splitLastSpace, splitLastSpace_nospace a ha]
  | cons c t ih =>
    show splitLastSpace (c :: (t ++ ' ' :: a)) = some (c :: t, a)
    simp [splitLastSpace, ih]

/-- Helper: `rsplit(" ", 2)` on `a SP b SP c` with space-free `b` and `c`
yields the three fields. -/
theorem rsplitSpace2_spec (a b c : Str) (hb : ' ' ∉ b) (hc : ' ' ∉ c) :
    rsplitSpace2 (a ++ ' ' :: (b ++ ' ' :: c)) = [a, b, c] := by
  unfold rsplitSpace2
  have h1 : a ++ ' ' :: (b ++ ' ' :: c) = (a ++ ' ' :: b) ++ ' ' :: c := by
    simp
  rw [h1, splitLastSpace_append _ _ hc]
  show (match splitLastSpace (a ++ ' ' :: b) with
        | none => [a ++ ' ' :: b, c]
        | some (b2, a2) => [b2, a2, c]) = [a, b, c]
  rw [splitLastSpace_append _ _ hb]

/-- Helper: a `tree` header line parses into the tree field. -/
theorem commitParseLine_tree (st : CommitParseState) (x : Str) :
    commitParseLine st ("tree ".toList ++ x) = some { st with tree := x } := by
  have hp : ("tree ".toList).isPrefixOf ("tree ".toList ++ x) = true := by
    simp [List.isPrefixOf]
  unfold commitParseLine
  rw [if_pos hp]
  have hlen : ("tree ".toList).length = 5 := by decide
  have hd := List.drop_left ("tree ".toList) x
  rw [hlen] at hd
  rw [hd]

/-- Helper: a `parent` header line appends one parent. -/
theorem commitParseLine_parent (st : CommitParseState) (p : Str) :
    commitParseLine st ("parent ".toList ++ p)
      = some { st with parents := st.parents ++ [p] } := by
  have h1 : ("tree ".toList).isPrefixOf ("parent ".toList ++ p) = false := by
    simp [List.isPrefixOf]
  have h2 : ("parent ".toList).isPrefixOf ("parent ".toList ++ p) = true := by
    simp [List.isPrefixOf]
  unfold commitParseLine
  rw [if_neg (by simp [h1]), if_pos h2]
  have hlen : ("parent ".toList).length = 7 := by decide
  have hd := List.drop_left ("parent ".toList) p
  rw [hlen] at hd
  rw [hd]

/-- Helper: an `author` header line reduces to the three-field split of
its payload. -/
theorem commitParseLine_author_reduce (st : CommitParseState) (rest : Str) :
    commitParseLine st ("author ".toList ++ rest)
      = (match rsplitSpace2 rest with
         | [a, ts, tz] =>
           (parseInt ts).map
             (fun t => { st with author := a, ats := some t, atz := tz })
         | _ => none) := by
  have h1 : ("tree ".toList).isPrefixOf ("author ".toList ++ rest) = false := by
    simp [List.isPrefixOf]
  have h2 : ("parent ".toList).isPrefixOf ("author ".toList ++ rest) = false := by
    simp [List.isPrefixOf]
  have h3 : ("author ".toList).isPrefixOf ("author ".toList ++ rest) = true := by
    simp [List.isPrefixOf]
  unfold commitParseLine
  rw [if_neg (by simp [h1]), if_neg (by simp [h2]), if_pos h3]
  have hlen : ("author ".toList).length = 7 := by decide
  have hd := List.drop_left ("author ".toList) rest
  rw [hlen] at hd
  rw [hd]

/-- Helper: a `committer` header line reduces to the three-field split of
its payload. -/
theorem commitParseLine_committer_reduce (st : CommitParseState) (rest : Str) :
    commitParseLine st ("committer ".toList ++ rest)
      = (match rsplitSpace2 rest with
         | [a, ts, tz] =>
           (parseInt ts).map
             (fun t => { st with committer := a, cts := some t, ctz := tz })
         | _ => none) := by
  have h1 : ("tree ".toList).isPrefixOf ("committer ".toList ++ rest) = false := by
    simp [List.isPrefixOf]
  have h2 : ("parent ".toList).isPrefixOf ("committer ".toList ++ rest) = false := by
    simp [List.isPrefixOf]
  have h3 : ("author ".toList).isPrefixOf ("committer ".toList ++ rest) = false := by
    simp [List.isPrefixOf]
  have h4 : ("committer ".toList).isPrefixOf ("committer ".toList ++ rest) = true := by
    simp [List.isPrefixOf]
  unfold commitParseLine
  rw [if_neg (by simp [h1]), if_neg (by simp [h2]), if_neg (by simp [h3]),
    if_pos h4]
  have hlen : ("committer ".toList).length = 10 := by decide
  have hd := List.drop_left ("committer ".toList) rest
  rw [hlen] at hd
  rw [hd]

/-- Helper: one unfolding of the header fold. -/
theorem commitParseLines_cons (st : CommitParseState) (l : Str) (ls : List Str) :
    commitParseLines st (l :: ls)
      = (match commitParseLine st l with
         | none => none
         | some st2 => commitParseLines st2 ls) := rfl

/-- Helper: the header fold distributes over list append. -/
theorem commitParseLines_append (st : CommitParseState) (l1 l2 : List Str) :
    commitParseLines st (l1 ++ l2)
      = (match commitParseLines st l1 with
         | none => none
         | some st2 => commitParseLines st2 l2) := by
  induction l1 generalizing st with
  | nil => rfl
  | cons x xs ih =>
    show commitParseLines st (x :: (xs ++ l2)) = _
    simp only [commitParseLines]
    cases commitParseLine st x with
    | none => rfl
    | some st2 => exact ih st2

/-- Helper: the header fold over a successfully parsed first block
continues from the resulting state. -/
theorem commitParseLines_append_some (st st2 : CommitParseState)
    (l1 l2 : List Str) (h : commitParseLines st l1 = some st2) :
    commitParseLines st (l1 ++ l2) = commitParseLines st2 l2 := by
  rw [commitParseLines_append, h]

/-- Helper: a block of `parent` lines appends the parents in order. -/
theorem commitParseLines_parents (ps : List Str) :
    ∀ st : CommitParseState,
      commitParseLines st (ps.map (fun p => "parent ".toList ++ p))
        = some { st with parents := st.parents ++ ps } := by
  induction ps with
  | nil =>
    intro st
    show some st = some { st with parents := st.parents ++ [] }
    simp
  | cons p ps ih =>
    intro st
    show commitParseLines st
        (("parent ".toList ++ p) :: ps.map (fun q => "parent ".toList ++ q)) = _
    rw [commitParseLines_cons, commitParseLine_parent]
    show commitParseLines { st with parents := st.parents ++ [p] }
        (ps.map (fun q => "parent ".toList ++ q)) = _
    rw [ih]
    simp

/-- Helper: the characters of `str(t)` are a sign or digits, hence never
a space or newline. -/
theorem intToStr_chars (t : Int) :
    ' ' ∉ intToStr t ∧ '\n' ∉ intToStr t := by
  unfold intToStr
  by_cases h : t < 0
  · rw [if_pos h]
    constructor
    · intro hm
      rcases List.mem_cons.mp hm with hm | hm
      · exact absurd hm (by decide)
      · exact absurd (natToStr_digits _ _ hm).1 (by decide)
    · intro hm
      rcases List.mem_cons.mp hm with hm | hm
      · exact absurd hm (by decide)
      · exact absurd (natToStr_digits _ _ hm).1 (by decide)
  · rw [if_neg h]
    constructor
    · intro hm
      exact absurd (natToStr_digits _ _ hm).1 (by decide)
    · intro hm
      exact absurd (natToStr_digits _ _ hm).1 (by decide)

/-- Helper: parsing the serialized header lines succeeds and recovers the
header fields. -/
theorem commitParseLines_serialize (c : Commit)
    (h7 : ' ' ∉ c.author_tz) (h8 : ' ' ∉ c.committer_tz) :
    commitParseLines commitParseInit c.headerLines
      = some { tree := c.tree, parents := c.parents, author := c.author,
               committer := c.committer,
               ats := some c.author_timestamp, cts := some c.committer_timestamp,
               atz := c.author_tz, ctz := c.committer_tz } := by
  have hA : ∀ st : CommitParseState,
      commitParseLine st ("author ".toList
          ++ (c.author ++ ' ' :: (intToStr c.author_timestamp ++ ' ' :: c.author_tz)))
        = some { st with
            author := c.author
            ats := some c.author_timestamp
            atz := c.author_tz } := by
    intro st
    rw [commitParseLine_author_reduce,
      rsplitSpace2_spec _ _ _ (intToStr_chars c.author_timestamp).1 h7]
    show (parseInt (intToStr c.author_timestamp)).map
        (fun t => { st with author := c.author, ats := some t, atz := c.author_tz })
      = some { st with author := c.author, ats := some c.author_timestamp, atz := c.author_tz }
    rw [parseInt_intToStr]
    rfl
  have hB : ∀ st : CommitParseState,
      commitParseLine st ("committer ".toList
          ++ (c.committer ++ ' ' :: (intToStr c.committer_timestamp
              ++ ' ' :: c.committer_tz)))
        = some { st with
            committer := c.committer
            cts := some c.committer_timestamp
            ctz := c.committer_tz } := by
    intro st
    rw [commitParseLine_committer_reduce,
      rsplitSpace2_spec _ _ _ (intToStr_chars c.committer_timestamp).1 h8]
    show (parseInt (intToStr c.committer_timestamp)).map
        (fun t => { st with committer := c.committer, cts := some t, ctz := c.committer_tz })
      = some { st with committer := c.committer, cts := some c.committer_timestamp, ctz := c.committer_tz }
    rw [parseInt_intToStr]
    rfl
  have hlines : c.headerLines
      = ("tree ".toList ++ c.tree)
        :: (c.parents.map (fun p => "parent ".toList ++ p)
          ++ [("author ".toList
                ++ (c.author ++ ' ' :: (intToStr c.author_timestamp
                    ++ ' ' :: c.author_tz))),
              ("committer ".toList
                ++ (c.committer ++ ' ' :: (intToStr c.committer_timestamp
                    ++ ' ' :: c.committer_tz)))]) := by
    unfold Commit.headerLines
    simp
  rw [hlines, commitParseLines_cons, commitParseLine_tree]
  show commitParseLines { commitParseInit with tree := c.tree }
      (c.parents.map (fun p => "parent ".toList ++ p) ++ _) = _
  rw [commitParseLines_append_some _ _ _ _ (commitParseLines_parents c.parents _)]
  rw [commitParseLines_cons, hA _]
  show commitParseLines _ [_] = _
  rw [commitParseLines_cons, hB _]
  show some _ = some _
  rfl

/-- Helper: every serialized header line is nonempty. -/
theorem headerLines_ne_nil (c : Commit) : ∀ l ∈ c.headerLines, l ≠ [] := by
  intro l hl
  unfold Commit.headerLines at hl
  rcases List.mem_cons.mp hl with rfl | hl
  · simp
  · rcases List.mem_append.mp hl with hl | hl
    · obtain ⟨p, _, rfl⟩ := List.mem_map.mp hl
      simp
    · have hl2 := hl
      simp only [List.mem_cons, List.mem_singleton] at hl2
      rcases hl2 with rfl | rfl | hfalse
      · simp
      · simp
      · exact absurd hfalse (List.not_mem_nil _)

/-- Helper: when no header field contains a newline, no serialized
header line contains a newline. -/
theorem headerLines_no_NL (c : Commit) (h1 : '\n' ∉ c.tree)
    (h2 : ∀ p ∈ c.parents, '\n' ∉ p) (h3 : '\n' ∉ c.author)
    (h4 : '\n' ∉ c.committer) (h5 : '\n' ∉ c.author_tz)
    (h6 : '\n' ∉ c.committer_tz) :
    ∀ l ∈ c.headerLines, '\n' ∉ l := by
  intro l hl
  unfold Commit.headerLines at hl
  rcases List.mem_cons.mp hl with rfl | hl
  · intro hm
    rcases List.mem_append.mp hm with hm | hm
    · exact absurd hm (by decide)
    · exact h1 hm
  · rcases List.mem_append.mp hl with hl | hl
    · obtain ⟨p, hp, rfl⟩ := List.mem_map.mp hl
      intro hm
      rcases List.mem_append.mp hm with hm | hm
      · exact absurd hm (by decide)
      · exact h2 p hp hm
    · have hl2 := hl
      simp only [List.mem_cons, List.mem_singleton] at hl2
      rcases hl2 with rfl | rfl | hfalse
      · intro hm
        simp only [List.append_assoc, List.mem_append, List.mem_singleton] at hm
        rcases hm with hm | hm | hm | hm | hm
        · exact absurd hm (by decide)
        · exact h3 hm
        · exact absurd hm (by decide)
        · exact (intToStr_chars c.author_timestamp).2 hm
        · rcases hm with hm | hm
          · exact absurd hm (by decide)
          · exact h5 hm
      · intro hm
        simp only [List.append_assoc, List.mem_append, List.mem_singleton] at hm
        rcases hm with hm | hm | hm | hm | hm
        · exact absurd hm (by decide)
        · exact h4 hm
        · exact absurd hm (by decide)
        · exact (intToStr_chars c.committer_timestamp).2 hm
        · rcases hm with hm | hm
          · exact absurd hm (by decide)
          · exact h6 hm
      · exact absurd hfalse (List.not_mem_nil _)

/-- C2 (amended): for every commit whose header fields are
newline-free (and whose timezone fields are space-free), deserializing
its serialized bytes yields a commit whose message is the original
message with leading and trailing whitespace stripped — the blank-line
separator is removed, but additionally `deserialize` strips the message,
so the round trip is byte-exact only for messages without leading or
trailing whitespace. -/
theorem commit_deserialize_strips_message (now : Int) (c : Commit)
    (h1 : '\n' ∉ c.tree) (h2 : ∀ p ∈ c.parents, '\n' ∉ p)
    (h3 : '\n' ∉ c.author) (h4 : '\n' ∉ c.committer)
    (h5 : '\n' ∉ c.author_tz) (h6 : '\n' ∉ c.committer_tz)
    (h7 : ' ' ∉ c.author_tz) (h8 : ' ' ∉ c.committer_tz) :
    (Commit.deserialize now (Commit.serialize c)).map Commit.message
      = some (pyStrip c.message) := by
  have hne := headerLines_ne_nil c
  have hnl := headerLines_no_NL c h1 h2 h3 h4 h5 h6
  have h0 : c.headerLines ≠ [] := by
    unfold Commit.headerLines
    simp
  have hser : Commit.serialize c
      = joinNL c.headerLines ++ '\n' :: '\n' :: c.message := by
    unfold Commit.serialize
    exact joinNL_append_blank _ _ h0
  unfold Commit.deserialize
  rw [hser, splitDoubleNL_joinNL _ _ hne hnl h0]
  show (match commitParseLines commitParseInit (splitNL (joinNL c.headerLines)) with
        | none => none
        | some st =>
          some (mkCommit st.tree st.parents st.author st.committer
            (pyStrip c.message) st.ats st.cts st.atz st.ctz now)).map Commit.message
    = some (pyStrip c.message)
  rw [splitNL_joinNL _ hnl h0, commitParseLines_serialize c h7 h8]
  rfl

/-- Witness for C2's amended statement on a concrete commit whose message
ends in a newline. -/
theorem commit_deserialize_strips_message_witness :
    (Commit.deserialize 0 (Commit.serialize commitC2)).map Commit.message
      = some (pyStrip commitC2.message)
    ∧ pyStrip commitC2.message = "hi".toList :=
  ⟨commit_deserialize_strips_message 0 commitC2 (by decide) (by decide)
      (by decide) (by decide) (by decide) (by decide) (by decide) (by decide),
   by decide⟩

/-- Counterexample for C2 as stated: a message with a trailing newline is
not recovered byte-for-byte — `deserialize` strips it. -/
theorem commit_message_not_byte_exact :
    (Commit.deserialize 0 (Commit.serialize commitC2)).map Commit.message
      ≠ some commitC2.message := by
  decide

end Hst
